import Mathlib

/-!
The manifest aggregation engine of triforce, `cli/app.go`.

A shallow embedding of the decision logic of `cli/app.go` (package `cli`):
`shouldUpdate`, `isAPrivateDependency`, `extractDependencies`,
`extractDevDependencies`, `getProjectFolders` and the action of the command
`assemble`.

Modelling conventions.

* A Go `string` is modelled by a Lean `String`.  The strings handled here come
  from decoded JSON and are valid UTF-8; on valid UTF-8 the bytewise order,
  the bytewise "has this beginning" test and the bytewise substring test of Go
  agree with the same notions on sequences of code points.
* A Go `map[string]string` is modelled by a function `String → Option String`
  (`StrMap`): `m k = none` means that `k` is not a key of `m`.  Two Go maps
  hold the same entries exactly when their models are equal functions.
* A run-time panic (a failed unchecked type assertion) is modelled by `none`
  in `Option`.
* The colour/`fmt` notifications printed by the engine have no influence on
  the maps and are not modelled.
* The file system and the library calls of the action are the fields of `Env`;
  a run of the action yields how it ends together with the list of the calls
  it made to the fold operations and to the writer.
-/

namespace Triforce

/-! ## Strings -/

/-- Go's `strings.TrimPrefix(s, prefix)`: `s` without the leading `pre` when
`s` starts with `pre`, and `s` itself otherwise. -/
def trimPrefix (s pre : String) : String :=
  if pre.data.isPrefixOf s.data then ⟨s.data.drop pre.data.length⟩ else s

/-- Go's `a < b` on strings: lexicographic comparison. -/
def stringLess (a b : String) : Bool :=
  decide (a.data < b.data)

/-- Search of `substr` in the remainder `s` of a string, position by
position (`strings.Index(s, substr) >= 0`). -/
def containsFrom : List Char → List Char → Bool
  | [], substr => substr.isEmpty
  | c :: cs, substr => substr.isPrefixOf (c :: cs) || containsFrom cs substr

/-- Go's `strings.Contains(s, substr)`. -/
def stringsContains (s substr : String) : Bool :=
  containsFrom s.data substr.data

/-- Go's `strings.ToLower(s)`, which is `strings.Map(unicode.ToLower, s)`: every
code point is replaced by its lower-case counterpart.  The case table of the
Go standard library, `unicode.ToLower`, is the parameter `runeLower`. -/
def toLower (runeLower : Char → Char) (s : String) : String :=
  ⟨s.data.map runeLower⟩

/-- The restriction of `unicode.ToLower` to ASCII (`'A'..'Z'` are shifted to
`'a'..'z'`), used to evaluate the engine on concrete ASCII inputs. -/
def asciiLower (c : Char) : Char :=
  c.toLower

/-! ## `shouldUpdate` and `isAPrivateDependency` -/

/-- The source function `shouldUpdate(original, new string) bool`. -/
def shouldUpdate (original new : String) : Bool :=
  let original := trimPrefix original "^"
  let original := trimPrefix original "~"
  let new := trimPrefix new "^"
  let new := trimPrefix new "~"
  stringLess original new

/-- The source function `isAPrivateDependency(version string, exclude ...string) bool`:
the loop over `exclude` returns `true` at the first pattern that matches. -/
def isAPrivateDependency (runeLower : Char → Char) (version : String) :
    List String → Bool
  | [] => false
  | pattern :: rest =>
    if stringsContains (toLower runeLower version) (toLower runeLower pattern) then true
    else isAPrivateDependency runeLower version rest

/-- The effect of the two successive `TrimPrefix` calls of `shouldUpdate` on
one string. -/
def stripQualifier (s : String) : String :=
  trimPrefix (trimPrefix s "^") "~"

/-- The stripping described by the specification: at most one leading
character is removed, and only when it is `^` or `~`. -/
def stripAtMostOne (s : String) : String :=
  match s.data with
  | c :: rest => if c = '^' ∨ c = '~' then ⟨rest⟩ else s
  | [] => s

/-- The stripping performed by the code, written out by cases on the
beginning of the string: `^~` is removed, else `^`, else `~`. -/
def stripCases (s : String) : String :=
  match s.data with
  | '^' :: '~' :: rest => ⟨rest⟩
  | '^' :: rest => ⟨rest⟩
  | '~' :: rest => ⟨rest⟩
  | _ => s

/-! ## Parsed manifests and Go maps -/

/-- A decoded JSON document, the content of a `*gabs.Container`: what
`encoding/json` produces for an `interface{}` target.  The numeric payload
plays no role in the engine and is kept as an integer. -/
inductive JVal where
  | null
  | bool (b : Bool)
  | num (n : Int)
  | str (s : String)
  | arr (items : List JVal)
  | obj (members : List (String × JVal))

/-- The value of `parsed.Path(key).Data()` (library `gabs`) for a path of one
segment: the member `key` of a JSON object.  On a container that is not an
object, or that lacks the member, gabs yields `nil` or a slice, never a
`map[string]interface{}`; both are modelled by `none`.  The members of an
object are listed in the order in which `range` visits them. -/
def pathData (parsed : JVal) (key : String) : Option JVal :=
  match parsed with
  | .obj members => members.lookup key
  | _ => none

/-- A Go `map[string]string`. -/
abbrev StrMap := String → Option String

/-- The result of `make(map[string]string)`. -/
def StrMap.empty : StrMap := fun _ => none

/-- The map after the assignment `m[k] = v`. -/
def StrMap.set (m : StrMap) (k v : String) : StrMap :=
  fun x => if x = k then some v else m x

/-! ## The two fold operations -/

set_option linter.unusedVariables false

/-- One iteration of the `range data` loop of `extractDependencies`, for the
entry `dep, version`.  The unchecked assertion `version.(string)` panics
(`none`) when the value is not a string. -/
def dependencyIteration (runeLower : Char → Char) (exclude : List String)
    (dependencies : StrMap) (dep : String) (version : JVal) : Option StrMap :=
  match version with
  | .str version =>
    if isAPrivateDependency runeLower version exclude then some dependencies
    else
      match dependencies dep with
      | some val =>
        if shouldUpdate val version then some (dependencies.set dep version)
        else some dependencies
      | none => some (dependencies.set dep version)
  | _ => none

/-- The source function `extractDependencies(project, parsed, dependencies, exclude)`;
the map it mutates in place is returned. -/
def extractDependencies (runeLower : Char → Char) (project : String) (parsed : JVal)
    (dependencies : StrMap) (exclude : List String) : Option StrMap :=
  match pathData parsed "dependencies" with
  | some (.obj data) =>
    data.foldlM
      (fun deps entry => dependencyIteration runeLower exclude deps entry.1 entry.2)
      dependencies
  | _ => some dependencies

/-- One iteration of the `range data` loop of `extractDevDependencies`, for
the entry `devDep, version`. -/
def devDependencyIteration (runeLower : Char → Char) (exclude : List String)
    (dependencies devDependencies : StrMap) (devDep : String) (version : JVal) :
    Option (StrMap × StrMap) :=
  match version with
  | .str version =>
    if isAPrivateDependency runeLower version exclude then
      some (dependencies, devDependencies)
    else
      match dependencies devDep with
      | some val =>
        if shouldUpdate val version then
          some (dependencies.set devDep version, devDependencies)
        else some (dependencies, devDependencies)
      | none =>
        match devDependencies devDep with
        | some val =>
          if shouldUpdate val version then
            some (dependencies, devDependencies.set devDep version)
          else some (dependencies, devDependencies)
        | none => some (dependencies, devDependencies.set devDep version)
  | _ => none

/-- The source function
`extractDevDependencies(project, parsed, dependencies, devDependencies, exclude)`;
the two maps it mutates in place are returned. -/
def extractDevDependencies (runeLower : Char → Char) (project : String) (parsed : JVal)
    (dependencies devDependencies : StrMap) (exclude : List String) :
    Option (StrMap × StrMap) :=
  match pathData parsed "devDependencies" with
  | some (.obj data) =>
    data.foldlM
      (fun r entry => devDependencyIteration runeLower exclude r.1 r.2 entry.1 entry.2)
      (dependencies, devDependencies)
  | _ => some (dependencies, devDependencies)

/-- The two loops over `parsedPackageJSONs` in the action of `Assemble`
(`app.go`, lines 96-102), started from the two maps made empty at lines 73-74.
Each element of the list is a parsed manifest together with its entry
`projectDependencyMap[parsed]`. -/
def assembleFolds (runeLower : Char → Char) (parsedPackageJSONs : List (String × JVal))
    (exclude : List String) : Option (StrMap × StrMap) :=
  match parsedPackageJSONs.foldlM
      (fun deps p => extractDependencies runeLower p.1 p.2 deps exclude) StrMap.empty with
  | none => none
  | some dependencies =>
    parsedPackageJSONs.foldlM
      (fun r p => extractDevDependencies runeLower p.1 p.2 r.1 r.2 exclude)
      (dependencies, StrMap.empty)

/-- The default value of the `exclude` flag of `assemble`. -/
def defaultExclude : List String := ["github", "gitlab", "bitbucket"]

/-! ## Vocabulary of the statements -/

/-- The entries visited by the engine under the member `key` of a manifest:
the members of the object found there, and nothing when the member is absent
or is not an object. -/
def declarations (parsed : JVal) (key : String) : List (String × JVal) :=
  match pathData parsed key with
  | some (.obj data) => data
  | _ => []

/-- Every value of the entry list is a JSON string. -/
def allStrings : List (String × JVal) → Bool
  | [] => true
  | (_, .str _) :: rest => allStrings rest
  | _ :: _ => false

/-- A manifest in the sense of the data model: under `dependencies` and under
`devDependencies` every version is a string. -/
def wellTyped (parsed : JVal) : Bool :=
  allStrings (declarations parsed "dependencies") &&
    allStrings (declarations parsed "devDependencies")

/-- Some project of the list declares `name` with version `version` under the
member `key` of its manifest. -/
def Declares (projects : List (String × JVal)) (key name version : String) : Prop :=
  ∃ p ∈ projects, (name, JVal.str version) ∈ declarations p.2 key

/-- A manifest whose only content is one declaration `name: version` under
the member `key`. -/
def singleDeclaration (key name version : String) : JVal :=
  .obj [(key, .obj [(name, .str version)])]

/-- The entries of a declaration object that survive the deletion of the
pairs whose version matches the exclusion set. -/
def dropExcludedEntries (runeLower : Char → Char) (exclude : List String)
    (data : List (String × JVal)) : List (String × JVal) :=
  data.filter fun entry =>
    match entry.2 with
    | .str version => !isAPrivateDependency runeLower version exclude
    | _ => true

/-- The deletion of the excluded pairs in a value: it acts on JSON objects
and leaves every other value alone. -/
def dropExcludedValue (runeLower : Char → Char) (exclude : List String) (v : JVal) : JVal :=
  match v with
  | .obj data => .obj (dropExcludedEntries runeLower exclude data)
  | other => other

/-- The deletion of the excluded pairs in a top-level member of a manifest:
only the members `dependencies` and `devDependencies` are touched. -/
def dropExcludedMember (runeLower : Char → Char) (exclude : List String)
    (m : String × JVal) : String × JVal :=
  if m.1 = "dependencies" ∨ m.1 = "devDependencies" then
    (m.1, dropExcludedValue runeLower exclude m.2)
  else m

/-- A manifest from whose `dependencies` and `devDependencies` objects the
pairs with an excluded version have been deleted. -/
def dropExcluded (runeLower : Char → Char) (exclude : List String) (parsed : JVal) : JVal :=
  match parsed with
  | .obj members => .obj (members.map (dropExcludedMember runeLower exclude))
  | other => other

/-! ## Per-package view of the folds -/

/-- The versions that an entry list declares for the package `name`, in the
order of the list (entries whose value is not a string declare none). -/
def versionsOf (name : String) (entries : List (String × JVal)) : List String :=
  entries.filterMap fun entry =>
    match entry.2 with
    | .str version => if entry.1 = name then some version else none
    | _ => none

/-- The versions declared for `name` under the member `key` by the projects of
the list, in processing order. -/
def allVersions (name key : String) (projects : List (String × JVal)) : List String :=
  projects.flatMap fun p => versionsOf name (declarations p.2 key)

/-- The effect of one declared version on the slot of its package in a map:
excluded versions leave it alone, the first version fills it, a later one
replaces it when `shouldUpdate` says so. -/
def pick (runeLower : Char → Char) (exclude : List String) (slot : Option String)
    (version : String) : Option String :=
  if isAPrivateDependency runeLower version exclude then slot
  else
    match slot with
    | some val => if shouldUpdate val version then some version else some val
    | none => some version

/-- The effect of one declared dev version on the two slots of its package
(in `dependencies`, in `devDependencies`). -/
def pickDev (runeLower : Char → Char) (exclude : List String)
    (slots : Option String × Option String) (version : String) :
    Option String × Option String :=
  match slots.1 with
  | some _ => (pick runeLower exclude slots.1 version, slots.2)
  | none => (none, pick runeLower exclude slots.2 version)

/-- The slot of a package as seen through the stripped forms: the greatest
stripped form met so far. -/
def pickStripped (runeLower : Char → Char) (exclude : List String) (slot : Option String)
    (version : String) : Option String :=
  if isAPrivateDependency runeLower version exclude then slot
  else
    match slot with
    | some s => some (max s (stripQualifier version))
    | none => some (stripQualifier version)

/-! ## Sample workspaces -/

/-- A manifest as the test suite writes it (`BasicPackageJSON`): the four
members `name`, `description`, `dependencies` and `devDependencies`. -/
def packageJSON (dependencies devDependencies : List (String × String)) : JVal :=
  .obj [("name", .str ""), ("description", .str ""),
    ("dependencies", .obj (dependencies.map fun e => (e.1, .str e.2))),
    ("devDependencies", .obj (devDependencies.map fun e => (e.1, .str e.2)))]

/-- Two projects that declare the same dependency with two range qualifiers. -/
def qualifierProjects : List (String × JVal) :=
  [("project-1", packageJSON [("dep-a", "^1.0.0")] []),
   ("project-2", packageJSON [("dep-a", "~1.0.0")] [])]

/-- The workspace of the test "should be listed only once as a dependency, not
as a devDependency" of `app_test.go`. -/
def promotionProjects : List (String × JVal) :=
  [("project-1", packageJSON [("somelib", "^2.5.0")] []),
   ("project-2", packageJSON [] [("somelib", "^2.6.1")])]

/-- The workspace of the test on the default exclusion patterns of
`app_test.go`, with a dev dependency added to the second project. -/
def privateProjects : List (String × JVal) :=
  [("project-1", packageJSON [("dep-a", "github.com/someorg/dep-a.git")] []),
   ("project-2", packageJSON
      [("dep-b", "1.0.0"), ("dep-c", "bitbucket.com/someorg/dep-c.git")]
      [("devdep-a", "~1.0.1")])]

/-! ## The `assemble` action and its environment -/

/-- Go's `strings.HasPrefix(s, prefix)`. -/
def hasPrefix (s pre : String) : Bool :=
  pre.data.isPrefixOf s.data

/-- Go's `path.Base` and, with `/` as the separator, `filepath.Base`: the last
element of a path.  Trailing slashes are removed first; the empty path gives
`.` and a path made of slashes only gives `/`. -/
def pathBase (path : String) : String :=
  if path.data.isEmpty then "."
  else
    let stripped := (path.data.reverse.dropWhile fun c => c == '/').reverse
    let last := (stripped.reverse.takeWhile fun c => c != '/').reverse
    if last.isEmpty then "/" else ⟨last⟩

/-- The constant `PackageJSON`. -/
def PackageJSON : String := "package.json"

/-- A Go `error` value, by its message. -/
abbrev GoError := String

/-- The part of an `os.FileInfo` that `getProjectFolders` reads. -/
structure FileInfo where
  name : String
  isDir : Bool

/-- The struct `TriforcePackageJSON`. -/
structure TriforcePackageJSON where
  Name : String
  Description : String
  Dependencies : StrMap
  DevDependencies : StrMap

/-- The services of the operating system and of the libraries that the
`assemble` action calls, as they answer during one run: `filepath.Abs`,
`ioutil.ReadDir`, `filepath.Join`, `os.Stat` (true when its error is `nil`),
`gabs.ParseJSONFile`, and `ioutil.WriteFile` applied to the indented JSON
encoding of a `TriforcePackageJSON` (`json.MarshalIndent` does not fail on a
struct of strings and string maps). -/
structure Env where
  abs : String → Except GoError String
  readDir : String → Except GoError (List FileInfo)
  join : List String → String
  stat : String → Bool
  parseJSONFile : String → Except GoError JVal
  writeFile : String → TriforcePackageJSON → Except GoError Unit

/-- The inner loop of `getProjectFolders` for the directory `name`: the name
is appended for every filter it contains (`continue` resumes this same
loop). -/
def appendMatches (name : String) : List String → List String → List String
  | [], projectDirectories => projectDirectories
  | filter :: rest, projectDirectories =>
    if stringsContains name filter then
      appendMatches name rest (projectDirectories ++ [name])
    else appendMatches name rest projectDirectories

/-- The loop `for _, d := range dirs` of `getProjectFolders`. -/
def scanDirs (filters : List String) : List FileInfo → List String → List String
  | [], projectDirectories => projectDirectories
  | d :: rest, projectDirectories =>
    if d.isDir && !hasPrefix d.name "." then
      if filters.length > 0 then
        scanDirs filters rest (appendMatches d.name filters projectDirectories)
      else scanDirs filters rest (projectDirectories ++ [d.name])
    else scanDirs filters rest projectDirectories

/-- The source function `getProjectFolders(root, filters)`. -/
def getProjectFolders (env : Env) (root : String) (filters : List String) :
    Except GoError (List String) :=
  match env.readDir root with
  | .error err => .error err
  | .ok dirs => .ok (scanDirs filters dirs [])

/-- The loop over `projectDirectories` in the action of `Assemble` (`app.go`,
lines 83-94): every directory whose `package.json` can be stat-ed is parsed;
a parse error is returned at once. -/
def loadManifests (env : Env) (root : String) :
    List String → List (String × JVal) → Except GoError (List (String × JVal))
  | [], parsedPackageJSONs => .ok parsedPackageJSONs
  | projectDirectory :: rest, parsedPackageJSONs =>
    let pkgPath := env.join [root, projectDirectory, PackageJSON]
    if env.stat pkgPath then
      match env.parseJSONFile pkgPath with
      | .error err => .error err
      | .ok parsed =>
        loadManifests env root rest
          (parsedPackageJSONs ++ [(pathBase projectDirectory, parsed)])
    else loadManifests env root rest parsedPackageJSONs

/-- The calls that a run of the action makes to the fold operations and to the
writer of the merged manifest, in order. -/
inductive Event where
  | extractDependencies (project : String)
  | extractDevDependencies (project : String)
  | writeFile (name : String) (content : TriforcePackageJSON)

/-- How a run of the action ends: it returns `nil`, returns an error, or
panics. -/
inductive Exit where
  | ok
  | error (err : GoError)
  | panic
  deriving DecidableEq

/-- The loop of lines 96-98 with the calls it makes appended to `events`. -/
def dependenciesPass (runeLower : Char → Char) (exclude : List String) :
    List (String × JVal) → StrMap → List Event → Option StrMap × List Event
  | [], dependencies, events => (some dependencies, events)
  | p :: rest, dependencies, events =>
    match extractDependencies runeLower p.1 p.2 dependencies exclude with
    | none => (none, events ++ [.extractDependencies p.1])
    | some dependencies =>
      dependenciesPass runeLower exclude rest dependencies
        (events ++ [.extractDependencies p.1])

/-- The loop of lines 100-102 with the calls it makes appended to `events`. -/
def devDependenciesPass (runeLower : Char → Char) (exclude : List String) :
    List (String × JVal) → StrMap × StrMap → List Event →
      Option (StrMap × StrMap) × List Event
  | [], maps, events => (some maps, events)
  | p :: rest, maps, events =>
    match extractDevDependencies runeLower p.1 p.2 maps.1 maps.2 exclude with
    | none => (none, events ++ [.extractDevDependencies p.1])
    | some maps =>
      devDependenciesPass runeLower exclude rest maps
        (events ++ [.extractDevDependencies p.1])

/-- The value `t` built at lines 104-109. -/
def mergedManifest (root : String) (dependencies devDependencies : StrMap) :
    TriforcePackageJSON :=
  { Name := "triforce-" ++ pathBase root
    Description := "automatically generated by triforce"
    Dependencies := dependencies
    DevDependencies := devDependencies }

/-- The `Action` of the command `assemble` on the positional arguments `args`
and the values `exclude` and `filter` of its two flags: how the run ends and
the calls it made. -/
def assembleAction (env : Env) (runeLower : Char → Char)
    (args exclude filter : List String) : Exit × List Event :=
  match args with
  | [arg] =>
    match env.abs arg with
    | .error err => (.error err, [])
    | .ok root =>
      match getProjectFolders env root filter with
      | .error err => (.error err, [])
      | .ok projectDirectories =>
        match loadManifests env root projectDirectories [] with
        | .error err => (.error err, [])
        | .ok parsedPackageJSONs =>
          match dependenciesPass runeLower exclude parsedPackageJSONs StrMap.empty [] with
          | (none, events) => (.panic, events)
          | (some dependencies, events) =>
            match devDependenciesPass runeLower exclude parsedPackageJSONs
                (dependencies, StrMap.empty) events with
            | (none, events) => (.panic, events)
            | (some maps, events) =>
              let t := mergedManifest root maps.1 maps.2
              match env.writeFile "package.json" t with
              | .error err => (.error err, events ++ [.writeFile "package.json" t])
              | .ok _ => (.ok, events ++ [.writeFile "package.json" t])
  | _ =>
    (.error "triforce assemble requires a root meta or monorepo folder as an argument", [])

/-- A workspace `/work/ginkgo_tests` for the evaluation of the action: the
directories `project-1` and `project-2` with the manifests of
`promotionProjects`, a directory `docs` without manifest, a hidden directory
and a plain file. -/
def sampleEnv : Env where
  abs := fun arg => .ok ("/work/" ++ arg)
  readDir := fun root =>
    if root = "/work/ginkgo_tests" then
      .ok [⟨".git", true⟩, ⟨"README.md", false⟩, ⟨"docs", true⟩, ⟨"project-1", true⟩,
        ⟨"project-2", true⟩]
    else .error "no such file or directory"
  join := fun parts => "/".intercalate parts
  stat := fun path =>
    path = "/work/ginkgo_tests/project-1/package.json" ∨
      path = "/work/ginkgo_tests/project-2/package.json"
  parseJSONFile := fun path =>
    if path = "/work/ginkgo_tests/project-1/package.json" then
      .ok (packageJSON [("somelib", "^2.5.0")] [])
    else if path = "/work/ginkgo_tests/project-2/package.json" then
      .ok (packageJSON [] [("somelib", "^2.6.1")])
    else .error "no such file or directory"
  writeFile := fun _ _ => .ok ()

/-- The workspace of `sampleEnv` in which the manifest of `project-2` is the
text `not json` (test "should throw an error if trying to assemble from broken
package.json files"). -/
def brokenEnv : Env :=
  { sampleEnv with
    parseJSONFile := fun path =>
      if path = "/work/ginkgo_tests/project-1/package.json" then
        .ok (packageJSON [("somelib", "^2.5.0")] [])
      else .error "invalid character 'o' in literal null (expecting 'u')" }

/-- How often `getProjectFolders` lists a directory entry: not at all when it
is a plain file or is hidden, once when there is no filter, and otherwise once
for every filter pattern that its name contains. -/
def occurrences (filters : List String) (d : FileInfo) : List String :=
  if d.isDir && !hasPrefix d.name "." then
    if filters.length > 0 then
      List.replicate (filters.countP fun filter => stringsContains d.name filter) d.name
    else [d.name]
  else []

/-! ## Strings: auxiliary facts -/

theorem stringLess_iff (a b : String) : stringLess a b = true ↔ a < b := by
  unfold stringLess
  rw [decide_eq_true_iff]
  exact String.lt_iff_toList_lt.symm

theorem trimPrefix_nil (pre : String) (p : Char) (hp : pre.data = [p]) :
    trimPrefix ⟨[]⟩ pre = ⟨[]⟩ := by
  simp [trimPrefix, hp, List.isPrefixOf]

theorem trimPrefix_cons_eq (pre : String) (p : Char) (hp : pre.data = [p])
    (rest : List Char) : trimPrefix ⟨p :: rest⟩ pre = ⟨rest⟩ := by
  simp [trimPrefix, hp, List.isPrefixOf]

theorem trimPrefix_cons_ne (pre : String) (p : Char) (hp : pre.data = [p])
    (c : Char) (rest : List Char) (h : c ≠ p) :
    trimPrefix ⟨c :: rest⟩ pre = ⟨c :: rest⟩ := by
  have h2 : ¬ p = c := fun e => h e.symm
  simp [trimPrefix, hp, List.isPrefixOf, h2]

theorem stripCases_of_ne (c : Char) (rest : List Char) (h1 : c ≠ '^') (h2 : c ≠ '~') :
    stripCases ⟨c :: rest⟩ = ⟨c :: rest⟩ := by
  unfold stripCases
  split <;> simp_all

theorem stripCases_caret_ne (d : Char) (rest : List Char) (h : d ≠ '~') :
    stripCases ⟨'^' :: d :: rest⟩ = ⟨d :: rest⟩ := by
  unfold stripCases
  split <;> simp_all

theorem stripQualifier_eq_stripCases (s : String) : stripQualifier s = stripCases s := by
  have hc : ("^" : String).data = ['^'] := rfl
  have ht : ("~" : String).data = ['~'] := rfl
  obtain ⟨l⟩ := s
  unfold stripQualifier
  match l with
  | [] => rw [trimPrefix_nil _ _ hc, trimPrefix_nil _ _ ht]; rfl
  | [c] =>
    by_cases h1 : c = '^'
    · subst h1; rw [trimPrefix_cons_eq _ _ hc, trimPrefix_nil _ _ ht]; rfl
    · rw [trimPrefix_cons_ne _ _ hc _ _ h1]
      by_cases h2 : c = '~'
      · subst h2; rw [trimPrefix_cons_eq _ _ ht]; rfl
      · rw [trimPrefix_cons_ne _ _ ht _ _ h2, stripCases_of_ne _ _ h1 h2]
  | c :: d :: rest =>
    by_cases h1 : c = '^'
    · subst h1
      rw [trimPrefix_cons_eq _ _ hc]
      by_cases h3 : d = '~'
      · subst h3; rw [trimPrefix_cons_eq _ _ ht]; rfl
      · rw [trimPrefix_cons_ne _ _ ht _ _ h3, stripCases_caret_ne _ _ h3]
    · rw [trimPrefix_cons_ne _ _ hc _ _ h1]
      by_cases h2 : c = '~'
      · subst h2; rw [trimPrefix_cons_eq _ _ ht]; rfl
      · rw [trimPrefix_cons_ne _ _ ht _ _ h2, stripCases_of_ne _ _ h1 h2]

theorem shouldUpdate_iff_lt (original new : String) :
    shouldUpdate original new = true ↔ stripQualifier original < stripQualifier new := by
  unfold shouldUpdate stripQualifier
  exact stringLess_iff _ _

theorem containsFrom_iff (s substr : List Char) :
    containsFrom s substr = true ↔ List.IsInfix substr s := by
  induction s with
  | nil => simp [containsFrom, List.isEmpty_iff]
  | cons c cs ih =>
    simp only [containsFrom, Bool.or_eq_true, ih, List.infix_cons_iff,
      List.isPrefixOf_iff_prefix]

theorem isAPrivateDependency_iff_exists (runeLower : Char → Char) (version : String)
    (exclude : List String) :
    isAPrivateDependency runeLower version exclude = true ↔
      ∃ pattern ∈ exclude,
        List.IsInfix (toLower runeLower pattern).data (toLower runeLower version).data := by
  induction exclude with
  | nil => simp [isAPrivateDependency]
  | cons p rest ih =>
    unfold isAPrivateDependency
    by_cases h : stringsContains (toLower runeLower version) (toLower runeLower p) = true
    · have h2 := (containsFrom_iff _ _).mp h
      simp only [h, if_true, true_iff]
      exact ⟨p, List.mem_cons_self _ _, h2⟩
    · have h2 : ¬ List.IsInfix (toLower runeLower p).data (toLower runeLower version).data :=
        fun hi => h ((containsFrom_iff _ _).mpr hi)
      simp only [h, if_false, Bool.false_eq_true, ih, List.mem_cons, exists_eq_or_imp, h2,
        false_or]

/-! ## The precedence rule and the exclusion matcher -/

/-- C1 (as stated, refuted): with a stripping that removes at most one leading
character, `shouldUpdate("1.0.0", "^~1.0.0")` would have to be true because
`"~1.0.0"` is greater than `"1.0.0"`; the code removes both characters and
answers false. -/
theorem shouldUpdate_not_stripAtMostOne :
    stripQualifier "^~1.0.0" = "1.0.0" ∧ stripAtMostOne "^~1.0.0" = "~1.0.0" ∧
      ¬ (shouldUpdate "1.0.0" "^~1.0.0" = true ↔
          stripAtMostOne "1.0.0" < stripAtMostOne "^~1.0.0") :=
  ⟨by decide, by decide,
    fun h => absurd (h.mpr (String.lt_iff_toList_lt.mpr (by decide))) (by decide)⟩

/-- C1 (amended): `shouldUpdate existing incoming` holds exactly when the
stripped incoming string is lexicographically greater than the stripped
existing one, where stripping removes a leading `^~`, else a leading `^`, else
a leading `~`: `^~1.0.0` becomes `1.0.0` and `~^1.0.0` becomes `^1.0.0`. -/
theorem shouldUpdate_iff_stripCases (existing incoming : String) :
    (shouldUpdate existing incoming = true ↔ stripCases existing < stripCases incoming) ∧
      stripCases "^~1.0.0" = "1.0.0" ∧ stripCases "~^1.0.0" = "^1.0.0" := by
  refine ⟨?_, by decide, by decide⟩
  rw [shouldUpdate_iff_lt, stripQualifier_eq_stripCases, stripQualifier_eq_stripCases]

/-- C2: `isAPrivateDependency` is true exactly when some pattern of the list,
lower-cased, is a substring of the lower-cased version; it is false for the
empty list and true as soon as the list holds the empty pattern. -/
theorem isAPrivateDependency_spec (runeLower : Char → Char) (version : String)
    (exclude : List String) :
    (isAPrivateDependency runeLower version exclude = true ↔
        ∃ pattern ∈ exclude,
          List.IsInfix (toLower runeLower pattern).data (toLower runeLower version).data) ∧
      isAPrivateDependency runeLower version [] = false ∧
      ∀ before after : List String,
        isAPrivateDependency runeLower version (before ++ "" :: after) = true := by
  refine ⟨isAPrivateDependency_iff_exists _ _ _, rfl, fun before after => ?_⟩
  rw [isAPrivateDependency_iff_exists]
  exact ⟨"", by simp, List.nil_infix⟩

/-! ## The folds, package by package -/

theorem set_apply (m : StrMap) (k v x : String) :
    m.set k v x = if x = k then some v else m x := rfl

theorem dependencyIteration_str (runeLower : Char → Char) (exclude : List String)
    (deps : StrMap) (name version : String) :
    ∃ deps', dependencyIteration runeLower exclude deps name (.str version) = some deps' ∧
      ∀ k, deps' k = if k = name then pick runeLower exclude (deps k) version else deps k := by
  unfold dependencyIteration
  by_cases hx : isAPrivateDependency runeLower version exclude = true
  · refine ⟨deps, by simp [hx], fun k => ?_⟩
    simp [pick, hx]
  · cases hd : deps name with
    | none =>
      refine ⟨deps.set name version, by simp [hx, hd], fun k => ?_⟩
      by_cases hk : k = name
      · subst hk; simp [set_apply, pick, hx, hd]
      · simp [set_apply, hk]
    | some val =>
      by_cases hu : shouldUpdate val version = true
      · refine ⟨deps.set name version, by simp [hx, hd, hu], fun k => ?_⟩
        by_cases hk : k = name
        · subst hk; simp [set_apply, pick, hx, hd, hu]
        · simp [set_apply, hk]
      · refine ⟨deps, by simp [hx, hd, hu], fun k => ?_⟩
        by_cases hk : k = name
        · subst hk; simp [pick, hx, hd, hu]
        · simp [hk]

theorem devDependencyIteration_str (runeLower : Char → Char) (exclude : List String)
    (deps dev : StrMap) (name version : String) :
    ∃ r, devDependencyIteration runeLower exclude deps dev name (.str version) = some r ∧
      ∀ k, (r.1 k, r.2 k) =
        if k = name then pickDev runeLower exclude (deps k, dev k) version
        else (deps k, dev k) := by
  unfold devDependencyIteration
  by_cases hx : isAPrivateDependency runeLower version exclude = true
  · refine ⟨(deps, dev), by simp [hx], fun k => ?_⟩
    cases hd : deps k <;> simp [pickDev, pick, hx, hd]
  · cases hd : deps name with
    | some val =>
      by_cases hu : shouldUpdate val version = true
      · refine ⟨(deps.set name version, dev), by simp [hx, hd, hu], fun k => ?_⟩
        by_cases hk : k = name
        · subst hk; simp [set_apply, pickDev, pick, hx, hd, hu]
        · simp [set_apply, hk]
      · refine ⟨(deps, dev), by simp [hx, hd, hu], fun k => ?_⟩
        by_cases hk : k = name
        · subst hk; simp [pickDev, pick, hx, hd, hu]
        · simp [hk]
    | none =>
      cases hv : dev name with
      | none =>
        refine ⟨(deps, dev.set name version), by simp [hx, hd, hv], fun k => ?_⟩
        by_cases hk : k = name
        · subst hk; simp [set_apply, pickDev, pick, hx, hd, hv]
        · simp [set_apply, hk]
      | some val =>
        by_cases hu : shouldUpdate val version = true
        · refine ⟨(deps, dev.set name version), by simp [hx, hd, hv, hu], fun k => ?_⟩
          by_cases hk : k = name
          · subst hk; simp [set_apply, pickDev, pick, hx, hd, hv, hu]
          · simp [set_apply, hk]
        · refine ⟨(deps, dev), by simp [hx, hd, hv, hu], fun k => ?_⟩
          by_cases hk : k = name
          · subst hk; simp [pickDev, pick, hx, hd, hv, hu]
          · simp [hk]

theorem versionsOf_cons_str (k name version : String) (rest : List (String × JVal)) :
    versionsOf k ((name, .str version) :: rest) =
      if name = k then version :: versionsOf k rest else versionsOf k rest := by
  unfold versionsOf
  by_cases h : name = k <;> simp [List.filterMap_cons, h]

theorem foldlM_dependencyIteration (runeLower : Char → Char) (exclude : List String)
    (data : List (String × JVal)) (hs : allStrings data = true) (deps : StrMap) :
    ∃ deps', data.foldlM
        (fun d entry => dependencyIteration runeLower exclude d entry.1 entry.2) deps
          = some deps' ∧
      ∀ k, deps' k = (versionsOf k data).foldl (pick runeLower exclude) (deps k) := by
  induction data generalizing deps with
  | nil => exact ⟨deps, rfl, fun k => rfl⟩
  | cons entry rest ih =>
    obtain ⟨name, value⟩ := entry
    cases value with
    | str version =>
      obtain ⟨d1, h1, hk1⟩ := dependencyIteration_str runeLower exclude deps name version
      obtain ⟨d2, h2, hk2⟩ := ih (by simpa [allStrings] using hs) d1
      refine ⟨d2, ?_, fun k => ?_⟩
      · simp only [List.foldlM_cons, h1, Option.bind_eq_bind, Option.some_bind]
        exact h2
      · rw [hk2 k, hk1 k, versionsOf_cons_str]
        by_cases hk : k = name
        · subst hk; simp
        · have hk' : ¬ name = k := fun e => hk e.symm
          simp [hk, hk']
    | _ => simp [allStrings] at hs

theorem foldlM_devDependencyIteration (runeLower : Char → Char) (exclude : List String)
    (data : List (String × JVal)) (hs : allStrings data = true) (r : StrMap × StrMap) :
    ∃ r', data.foldlM
        (fun r entry => devDependencyIteration runeLower exclude r.1 r.2 entry.1 entry.2) r
          = some r' ∧
      ∀ k, (r'.1 k, r'.2 k) =
        (versionsOf k data).foldl (pickDev runeLower exclude) (r.1 k, r.2 k) := by
  induction data generalizing r with
  | nil => exact ⟨r, rfl, fun k => rfl⟩
  | cons entry rest ih =>
    obtain ⟨name, value⟩ := entry
    cases value with
    | str version =>
      obtain ⟨r1, h1, hk1⟩ := devDependencyIteration_str runeLower exclude r.1 r.2 name version
      obtain ⟨r2, h2, hk2⟩ := ih (by simpa [allStrings] using hs) r1
      refine ⟨r2, ?_, fun k => ?_⟩
      · simp only [List.foldlM_cons, h1, Option.bind_eq_bind, Option.some_bind]
        exact h2
      · rw [hk2 k, hk1 k, versionsOf_cons_str]
        by_cases hk : k = name
        · subst hk; simp
        · have hk' : ¬ name = k := fun e => hk e.symm
          simp [hk, hk']
    | _ => simp [allStrings] at hs

theorem extractDependencies_eq_foldlM (runeLower : Char → Char) (project : String)
    (parsed : JVal) (deps : StrMap) (exclude : List String) :
    extractDependencies runeLower project parsed deps exclude =
      (declarations parsed "dependencies").foldlM
        (fun d entry => dependencyIteration runeLower exclude d entry.1 entry.2) deps := by
  unfold extractDependencies declarations
  split
  · rfl
  · rfl

theorem extractDevDependencies_eq_foldlM (runeLower : Char → Char) (project : String)
    (parsed : JVal) (deps dev : StrMap) (exclude : List String) :
    extractDevDependencies runeLower project parsed deps dev exclude =
      (declarations parsed "devDependencies").foldlM
        (fun r entry => devDependencyIteration runeLower exclude r.1 r.2 entry.1 entry.2)
        (deps, dev) := by
  unfold extractDevDependencies declarations
  split
  · rfl
  · rfl

theorem wellTyped_iff (parsed : JVal) :
    wellTyped parsed = true ↔
      allStrings (declarations parsed "dependencies") = true ∧
        allStrings (declarations parsed "devDependencies") = true := by
  simp [wellTyped]

theorem allVersions_cons (k key : String) (p : String × JVal) (ps : List (String × JVal)) :
    allVersions k key (p :: ps) = versionsOf k (declarations p.2 key) ++ allVersions k key ps := by
  simp [allVersions]

theorem foldlM_extractDependencies (runeLower : Char → Char) (exclude : List String)
    (ps : List (String × JVal)) (hw : ∀ p ∈ ps, wellTyped p.2 = true) (deps : StrMap) :
    ∃ deps', ps.foldlM
        (fun d p => extractDependencies runeLower p.1 p.2 d exclude) deps = some deps' ∧
      ∀ k, deps' k =
        (allVersions k "dependencies" ps).foldl (pick runeLower exclude) (deps k) := by
  induction ps generalizing deps with
  | nil => exact ⟨deps, rfl, fun k => rfl⟩
  | cons p rest ih =>
    have hp := (wellTyped_iff p.2).mp (hw p (List.mem_cons_self _ _))
    obtain ⟨d1, h1, hk1⟩ :=
      foldlM_dependencyIteration runeLower exclude _ hp.1 deps
    obtain ⟨d2, h2, hk2⟩ := ih (fun q hq => hw q (List.mem_cons_of_mem _ hq)) d1
    refine ⟨d2, ?_, fun k => ?_⟩
    · simp only [List.foldlM_cons, extractDependencies_eq_foldlM, h1, Option.bind_eq_bind,
        Option.some_bind]
      simpa only [extractDependencies_eq_foldlM] using h2
    · rw [hk2 k, hk1 k, allVersions_cons, List.foldl_append]

theorem foldlM_extractDevDependencies (runeLower : Char → Char) (exclude : List String)
    (ps : List (String × JVal)) (hw : ∀ p ∈ ps, wellTyped p.2 = true) (r : StrMap × StrMap) :
    ∃ r', ps.foldlM
        (fun r p => extractDevDependencies runeLower p.1 p.2 r.1 r.2 exclude) r = some r' ∧
      ∀ k, (r'.1 k, r'.2 k) =
        (allVersions k "devDependencies" ps).foldl (pickDev runeLower exclude) (r.1 k, r.2 k) := by
  induction ps generalizing r with
  | nil => exact ⟨r, rfl, fun k => rfl⟩
  | cons p rest ih =>
    have hp := (wellTyped_iff p.2).mp (hw p (List.mem_cons_self _ _))
    obtain ⟨r1, h1, hk1⟩ :=
      foldlM_devDependencyIteration runeLower exclude _ hp.2 r
    obtain ⟨r2, h2, hk2⟩ := ih (fun q hq => hw q (List.mem_cons_of_mem _ hq)) r1
    refine ⟨r2, ?_, fun k => ?_⟩
    · simp only [List.foldlM_cons, extractDevDependencies_eq_foldlM, h1, Option.bind_eq_bind,
        Option.some_bind]
      simpa only [extractDevDependencies_eq_foldlM] using h2
    · rw [hk2 k, hk1 k, allVersions_cons, List.foldl_append]

/-- On manifests of the data model the two passes end, and the two slots of
every package are the per-package folds of the declared versions. -/
theorem assembleFolds_slots (runeLower : Char → Char) (exclude : List String)
    (ps : List (String × JVal)) (hw : ∀ p ∈ ps, wellTyped p.2 = true) :
    ∃ d dd, assembleFolds runeLower ps exclude = some (d, dd) ∧
      ∀ k, (d k, dd k) =
        (allVersions k "devDependencies" ps).foldl (pickDev runeLower exclude)
          ((allVersions k "dependencies" ps).foldl (pick runeLower exclude) none, none) := by
  obtain ⟨d1, h1, hk1⟩ := foldlM_extractDependencies runeLower exclude ps hw StrMap.empty
  obtain ⟨r2, h2, hk2⟩ := foldlM_extractDevDependencies runeLower exclude ps hw (d1, StrMap.empty)
  refine ⟨r2.1, r2.2, ?_, fun k => ?_⟩
  · unfold assembleFolds
    rw [h1]
    exact h2
  · rw [hk2 k]
    simp only [hk1 k, StrMap.empty]

/-! ## Facts on the per-package folds -/

theorem pick_some_ne_none (runeLower : Char → Char) (exclude : List String)
    (val version : String) : pick runeLower exclude (some val) version ≠ none := by
  unfold pick
  split
  · simp
  · dsimp only
    split <;> simp

theorem foldl_pick_ne_none_iff (runeLower : Char → Char) (exclude : List String)
    (versions : List String) (slot : Option String) :
    versions.foldl (pick runeLower exclude) slot ≠ none ↔
      slot ≠ none ∨ ∃ v ∈ versions, isAPrivateDependency runeLower v exclude = false := by
  induction versions generalizing slot with
  | nil => simp
  | cons v rest ih =>
    rw [List.foldl_cons, ih]
    by_cases hx : isAPrivateDependency runeLower v exclude = true
    · have hp : pick runeLower exclude slot v = slot := by simp [pick, hx]
      rw [hp]
      simp [hx]
    · have hx' : isAPrivateDependency runeLower v exclude = false := by simpa using hx
      have hp : pick runeLower exclude slot v ≠ none := by
        cases slot with
        | none => simp [pick, hx']
        | some val => exact pick_some_ne_none _ _ _ _
      simp [hp, hx']

theorem foldl_pickDev_some (runeLower : Char → Char) (exclude : List String)
    (versions : List String) (val : String) (other : Option String) :
    versions.foldl (pickDev runeLower exclude) (some val, other) =
      (versions.foldl (pick runeLower exclude) (some val), other) := by
  induction versions generalizing val with
  | nil => rfl
  | cons v rest ih =>
    rw [List.foldl_cons, List.foldl_cons]
    have h1 : pickDev runeLower exclude (some val, other) v =
        (pick runeLower exclude (some val) v, other) := rfl
    rw [h1]
    cases hp : pick runeLower exclude (some val) v with
    | none => exact absurd hp (pick_some_ne_none _ _ _ _)
    | some w => exact ih w

theorem foldl_pickDev_none (runeLower : Char → Char) (exclude : List String)
    (versions : List String) (other : Option String) :
    versions.foldl (pickDev runeLower exclude) (none, other) =
      (none, versions.foldl (pick runeLower exclude) other) := by
  induction versions generalizing other with
  | nil => rfl
  | cons v rest ih =>
    rw [List.foldl_cons, List.foldl_cons]
    have h1 : pickDev runeLower exclude (none, other) v =
        (none, pick runeLower exclude other v) := rfl
    rw [h1]
    exact ih _

theorem mem_versionsOf (k version : String) (data : List (String × JVal)) :
    version ∈ versionsOf k data ↔ (k, JVal.str version) ∈ data := by
  induction data with
  | nil => simp [versionsOf]
  | cons entry rest ih =>
    obtain ⟨name, value⟩ := entry
    cases value with
    | str w =>
      rw [versionsOf_cons_str]
      by_cases hk : name = k
      · subst hk; simp [ih, eq_comm]
      · have hk' : ¬ k = name := fun e => hk e.symm
        simp [hk, hk', ih]
    | _ => simpa [versionsOf, List.filterMap_cons] using ih

theorem mem_allVersions (k key version : String) (ps : List (String × JVal)) :
    version ∈ allVersions k key ps ↔ Declares ps key k version := by
  simp only [allVersions, List.mem_flatMap, mem_versionsOf, Declares]

/-! ## Category exclusivity and the key sets of the merged result -/

/-- C3: on every list of manifests the two passes end with a pair of maps, and
no package name is a key of both `dependencies` and `devDependencies`. -/
theorem assembleFolds_exclusive (runeLower : Char → Char) (exclude : List String)
    (projects : List (String × JVal)) (hw : ∀ p ∈ projects, wellTyped p.2 = true) :
    ∃ dependencies devDependencies,
      assembleFolds runeLower projects exclude = some (dependencies, devDependencies) ∧
      ∀ name, ¬ (dependencies name ≠ none ∧ devDependencies name ≠ none) := by
  obtain ⟨d, dd, hr, hk⟩ := assembleFolds_slots runeLower exclude projects hw
  refine ⟨d, dd, hr, fun name => ?_⟩
  have h := hk name
  cases hD : (allVersions name "dependencies" projects).foldl (pick runeLower exclude) none with
  | none =>
    rw [hD, foldl_pickDev_none] at h
    have : d name = none := congrArg Prod.fst h
    simp [this]
  | some val =>
    rw [hD, foldl_pickDev_some] at h
    have : dd name = none := congrArg Prod.snd h
    simp [this]

/-- C8: a name is a key of the final `dependencies` map exactly when some
project declares it under `dependencies` with a non-excluded version; it is a
key of the final `devDependencies` map exactly when some project declares it
under `devDependencies` with a non-excluded version and none declares it under
`dependencies` with a non-excluded version. -/
theorem assembleFolds_keys (runeLower : Char → Char) (exclude : List String)
    (projects : List (String × JVal)) (hw : ∀ p ∈ projects, wellTyped p.2 = true) :
    ∃ dependencies devDependencies,
      assembleFolds runeLower projects exclude = some (dependencies, devDependencies) ∧
      (∀ name, dependencies name ≠ none ↔
        ∃ v, Declares projects "dependencies" name v ∧
          isAPrivateDependency runeLower v exclude = false) ∧
      (∀ name, devDependencies name ≠ none ↔
        (∃ v, Declares projects "devDependencies" name v ∧
          isAPrivateDependency runeLower v exclude = false) ∧
        ¬ ∃ v, Declares projects "dependencies" name v ∧
          isAPrivateDependency runeLower v exclude = false) := by
  obtain ⟨d, dd, hr, hk⟩ := assembleFolds_slots runeLower exclude projects hw
  have hmem : ∀ key name, (∃ v ∈ allVersions name key projects,
      isAPrivateDependency runeLower v exclude = false) ↔
      ∃ v, Declares projects key name v ∧ isAPrivateDependency runeLower v exclude = false := by
    intro key name
    simp only [mem_allVersions]
  refine ⟨d, dd, hr, fun name => ?_, fun name => ?_⟩
  · have h := hk name
    rw [← hmem]
    cases hD : (allVersions name "dependencies" projects).foldl (pick runeLower exclude) none with
    | none =>
      rw [hD, foldl_pickDev_none] at h
      have h1 : d name = none := congrArg Prod.fst h
      have h2 := (foldl_pick_ne_none_iff runeLower exclude _ none).not.mp (by simpa using hD)
      simp only [ne_eq, not_true_eq_false, false_or] at h2
      simp [h1, h2]
    | some val =>
      rw [hD, foldl_pickDev_some] at h
      have h1 : d name = _ := congrArg Prod.fst h
      have h2 := (foldl_pick_ne_none_iff runeLower exclude
        (allVersions name "dependencies" projects) none).mp (by simp [hD])
      simp only [ne_eq, not_true_eq_false, false_or] at h2
      have h3 : d name ≠ none := by
        rw [h1]
        exact (foldl_pick_ne_none_iff runeLower exclude _ (some val)).mpr (Or.inl (by simp))
      simp [h3, h2]
  · have h := hk name
    rw [← hmem, ← hmem]
    cases hD : (allVersions name "dependencies" projects).foldl (pick runeLower exclude) none with
    | none =>
      rw [hD, foldl_pickDev_none] at h
      have h1 : dd name = _ := congrArg Prod.snd h
      have h2 := (foldl_pick_ne_none_iff runeLower exclude _ none).not.mp (by simpa using hD)
      simp only [ne_eq, not_true_eq_false, false_or] at h2
      rw [h1, foldl_pick_ne_none_iff]
      simp only [ne_eq, not_true_eq_false, false_or]
      exact ⟨fun h => ⟨h, h2⟩, fun h => h.1⟩
    | some val =>
      rw [hD, foldl_pickDev_some] at h
      have h1 : dd name = none := congrArg Prod.snd h
      have h2 := (foldl_pick_ne_none_iff runeLower exclude
        (allVersions name "dependencies" projects) none).mp (by simp [hD])
      simp only [ne_eq, not_true_eq_false, false_or] at h2
      simp only [h1, ne_eq, not_true_eq_false, false_iff, not_and, not_not]
      exact fun _ => h2


/-! ## Independence of the project order -/

theorem pick_map_strip (runeLower : Char → Char) (exclude : List String)
    (slot : Option String) (version : String) :
    (pick runeLower exclude slot version).map stripQualifier =
      pickStripped runeLower exclude (slot.map stripQualifier) version := by
  unfold pick pickStripped
  by_cases hx : isAPrivateDependency runeLower version exclude = true
  · simp [hx]
  · cases slot with
    | none => simp [hx]
    | some val =>
      by_cases hu : shouldUpdate val version = true
      · have hlt := (shouldUpdate_iff_lt val version).mp hu
        simp [hx, hu, max_eq_right (le_of_lt hlt)]
      · have hle : stripQualifier version ≤ stripQualifier val :=
          not_lt.mp (fun h => hu ((shouldUpdate_iff_lt val version).mpr h))
        simp [hx, hu, max_eq_left hle]

theorem foldl_pick_map_strip (runeLower : Char → Char) (exclude : List String)
    (versions : List String) (slot : Option String) :
    (versions.foldl (pick runeLower exclude) slot).map stripQualifier =
      versions.foldl (pickStripped runeLower exclude) (slot.map stripQualifier) := by
  induction versions generalizing slot with
  | nil => rfl
  | cons v rest ih => rw [List.foldl_cons, List.foldl_cons, ih, pick_map_strip]

theorem pickStripped_right_comm (runeLower : Char → Char) (exclude : List String)
    (slot : Option String) (v w : String) :
    pickStripped runeLower exclude (pickStripped runeLower exclude slot v) w =
      pickStripped runeLower exclude (pickStripped runeLower exclude slot w) v := by
  unfold pickStripped
  by_cases hv : isAPrivateDependency runeLower v exclude = true <;>
    by_cases hw : isAPrivateDependency runeLower w exclude = true <;>
    cases slot <;> simp [hv, hw, sup_comm, sup_left_comm, sup_assoc]

theorem foldl_pickStripped_perm (runeLower : Char → Char) (exclude : List String)
    {l l' : List String} (hp : l.Perm l') (slot : Option String) :
    l.foldl (pickStripped runeLower exclude) slot =
      l'.foldl (pickStripped runeLower exclude) slot := by
  haveI : RightCommutative (pickStripped runeLower exclude) :=
    ⟨pickStripped_right_comm runeLower exclude⟩
  exact hp.foldl_eq slot

theorem slots_strip_perm (runeLower : Char → Char) (exclude : List String)
    {D D' V V' : List String} (hD : D.Perm D') (hV : V.Perm V') :
    ((V.foldl (pickDev runeLower exclude) (D.foldl (pick runeLower exclude) none, none)).1.map
        stripQualifier =
      (V'.foldl (pickDev runeLower exclude) (D'.foldl (pick runeLower exclude) none, none)).1.map
        stripQualifier) ∧
    ((V.foldl (pickDev runeLower exclude) (D.foldl (pick runeLower exclude) none, none)).2.map
        stripQualifier =
      (V'.foldl (pickDev runeLower exclude) (D'.foldl (pick runeLower exclude) none, none)).2.map
        stripQualifier) := by
  have hfirst : (D.foldl (pick runeLower exclude) none).map stripQualifier =
      (D'.foldl (pick runeLower exclude) none).map stripQualifier := by
    rw [foldl_pick_map_strip, foldl_pick_map_strip]
    exact foldl_pickStripped_perm runeLower exclude hD _
  cases ha : D.foldl (pick runeLower exclude) none with
  | none =>
    cases ha' : D'.foldl (pick runeLower exclude) none with
    | none =>
      rw [foldl_pickDev_none, foldl_pickDev_none]
      refine ⟨rfl, ?_⟩
      dsimp only
      rw [foldl_pick_map_strip, foldl_pick_map_strip]
      exact foldl_pickStripped_perm runeLower exclude hV _
    | some x' => rw [ha, ha'] at hfirst; simp at hfirst
  | some x =>
    cases ha' : D'.foldl (pick runeLower exclude) none with
    | none => rw [ha, ha'] at hfirst; simp at hfirst
    | some x' =>
      rw [ha, ha'] at hfirst
      rw [foldl_pickDev_some, foldl_pickDev_some]
      refine ⟨?_, rfl⟩
      dsimp only
      rw [foldl_pick_map_strip, foldl_pick_map_strip, hfirst]
      exact foldl_pickStripped_perm runeLower exclude hV _

theorem allVersions_perm (k key : String) {ps ps' : List (String × JVal)} (hp : ps.Perm ps') :
    (allVersions k key ps).Perm (allVersions k key ps') :=
  List.Perm.flatMap_right _ hp

theorem foldl_pick_eq_some (runeLower : Char → Char) (exclude : List String)
    (versions : List String) (slot : Option String) (x : String)
    (h : versions.foldl (pick runeLower exclude) slot = some x) :
    slot = some x ∨ (x ∈ versions ∧ isAPrivateDependency runeLower x exclude = false) := by
  induction versions generalizing slot with
  | nil => exact Or.inl h
  | cons v rest ih =>
    rw [List.foldl_cons] at h
    rcases ih _ h with h1 | ⟨h1, h2⟩
    · unfold pick at h1
      by_cases hx : isAPrivateDependency runeLower v exclude = true
      · simp only [hx, if_true] at h1
        exact Or.inl h1
      · have hx' : isAPrivateDependency runeLower v exclude = false := by simpa using hx
        simp only [hx', Bool.false_eq_true, if_false] at h1
        cases slot with
        | none =>
          simp only [Option.some.injEq] at h1
          subst h1
          exact Or.inr ⟨List.mem_cons_self _ _, hx'⟩
        | some val =>
          by_cases hu : shouldUpdate val v = true
          · simp only [hu, if_true, Option.some.injEq] at h1
            subst h1
            exact Or.inr ⟨List.mem_cons_self _ _, hx'⟩
          · simp only [hu, Bool.false_eq_true, if_false] at h1
            exact Or.inl h1
    · exact Or.inr ⟨List.mem_cons_of_mem _ h1, h2⟩

theorem slots_fst_eq_some (runeLower : Char → Char) (exclude : List String)
    (D V : List String) (x : String)
    (h : (V.foldl (pickDev runeLower exclude) (D.foldl (pick runeLower exclude) none, none)).1
      = some x) :
    (x ∈ D ∨ x ∈ V) ∧ isAPrivateDependency runeLower x exclude = false := by
  cases ha : D.foldl (pick runeLower exclude) none with
  | none =>
    rw [ha, foldl_pickDev_none] at h
    simp at h
  | some y =>
    rw [ha, foldl_pickDev_some] at h
    rcases foldl_pick_eq_some runeLower exclude V (some y) x h with h1 | ⟨h1, h2⟩
    · rw [h1] at ha
      rcases foldl_pick_eq_some runeLower exclude D none x ha with h3 | ⟨h3, h4⟩
      · simp at h3
      · exact ⟨Or.inl h3, h4⟩
    · exact ⟨Or.inr h1, h2⟩

theorem slots_snd_eq_some (runeLower : Char → Char) (exclude : List String)
    (D V : List String) (x : String)
    (h : (V.foldl (pickDev runeLower exclude) (D.foldl (pick runeLower exclude) none, none)).2
      = some x) :
    x ∈ V ∧ isAPrivateDependency runeLower x exclude = false := by
  cases ha : D.foldl (pick runeLower exclude) none with
  | none =>
    rw [ha, foldl_pickDev_none] at h
    rcases foldl_pick_eq_some runeLower exclude V none x h with h1 | h1
    · simp at h1
    · exact h1
  | some y =>
    rw [ha, foldl_pickDev_some] at h
    simp at h

theorem option_eq_of_map_strip (a b : Option String)
    (hs : a.map stripQualifier = b.map stripQualifier)
    (hinj : ∀ x y, a = some x → b = some y → stripQualifier x = stripQualifier y → x = y) :
    a = b := by
  cases a with
  | none => cases b with
    | none => rfl
    | some y => simp at hs
  | some x => cases b with
    | none => simp at hs
    | some y =>
      have := hinj x y rfl rfl (by simpa using hs)
      rw [this]

/-- C4 (as stated, refuted): two projects that declare the same dependency as
`^1.0.0` and as `~1.0.0` have equal stripped forms, so whichever is processed
first is kept: the two orders of the project list give different
`dependencies` maps. -/
theorem assembleFolds_order_matters :
    List.Perm qualifierProjects qualifierProjects.reverse ∧
      (assembleFolds asciiLower qualifierProjects defaultExclude).map
        (fun r => r.1 "dep-a") = some (some "^1.0.0") ∧
      (assembleFolds asciiLower qualifierProjects.reverse defaultExclude).map
        (fun r => r.1 "dep-a") = some (some "~1.0.0") ∧
      assembleFolds asciiLower qualifierProjects defaultExclude ≠
        assembleFolds asciiLower qualifierProjects.reverse defaultExclude := by
  have h1 : (assembleFolds asciiLower qualifierProjects defaultExclude).map
      (fun r => r.1 "dep-a") = some (some "^1.0.0") := by decide
  have h2 : (assembleFolds asciiLower qualifierProjects.reverse defaultExclude).map
      (fun r => r.1 "dep-a") = some (some "~1.0.0") := by decide
  refine ⟨(List.reverse_perm _).symm, h1, h2, fun h => ?_⟩
  rw [h, h2] at h1
  exact absurd h1 (by decide)

/-- C4 (amended): for every permutation of the project list the two passes end
with maps that have the same keys and, key by key, values with the same
stripped form; the maps are equal whenever no package has two different
non-excluded declared versions with the same stripped form. -/
theorem assembleFolds_perm (runeLower : Char → Char) (exclude : List String)
    (projects projects' : List (String × JVal)) (hp : projects.Perm projects')
    (hw : ∀ p ∈ projects, wellTyped p.2 = true) :
    ∃ d dd d' dd',
      assembleFolds runeLower projects exclude = some (d, dd) ∧
      assembleFolds runeLower projects' exclude = some (d', dd') ∧
      (∀ name, (d name).map stripQualifier = (d' name).map stripQualifier ∧
        (dd name).map stripQualifier = (dd' name).map stripQualifier) ∧
      ((∀ name v w,
          (Declares projects "dependencies" name v ∨
            Declares projects "devDependencies" name v) →
          (Declares projects "dependencies" name w ∨
            Declares projects "devDependencies" name w) →
          isAPrivateDependency runeLower v exclude = false →
          isAPrivateDependency runeLower w exclude = false →
          stripQualifier v = stripQualifier w → v = w) →
        d = d' ∧ dd = dd') := by
  have hw' : ∀ p ∈ projects', wellTyped p.2 = true := fun p hm => hw p (hp.symm.subset hm)
  obtain ⟨d, dd, hr, hk⟩ := assembleFolds_slots runeLower exclude projects hw
  obtain ⟨d', dd', hr', hk'⟩ := assembleFolds_slots runeLower exclude projects' hw'
  have hstrip : ∀ name, (d name).map stripQualifier = (d' name).map stripQualifier ∧
      (dd name).map stripQualifier = (dd' name).map stripQualifier := by
    intro name
    have hs := slots_strip_perm runeLower exclude
      (allVersions_perm name "dependencies" hp) (allVersions_perm name "devDependencies" hp)
    rw [← hk name, ← hk' name] at hs
    exact hs
  refine ⟨d, dd, d', dd', hr, hr', hstrip, fun hinj => ?_⟩
  have hdecl : ∀ key name v, Declares projects' key name v → Declares projects key name v := by
    intro key name v ⟨p, hm, hv⟩
    exact ⟨p, hp.symm.subset hm, hv⟩
  constructor
  · funext name
    refine option_eq_of_map_strip _ _ (hstrip name).1 (fun x y hx hy hxy => ?_)
    have h1 := slots_fst_eq_some runeLower exclude _ _ x
      (by rw [← hk name]; exact hx)
    have h2 := slots_fst_eq_some runeLower exclude _ _ y
      (by rw [← hk' name]; exact hy)
    simp only [mem_allVersions] at h1 h2
    exact hinj name x y h1.1 (h2.1.imp (hdecl _ _ _) (hdecl _ _ _)) h1.2 h2.2 hxy
  · funext name
    refine option_eq_of_map_strip _ _ (hstrip name).2 (fun x y hx hy hxy => ?_)
    have h1 := slots_snd_eq_some runeLower exclude _ _ x
      (by rw [← hk name]; exact hx)
    have h2 := slots_snd_eq_some runeLower exclude _ _ y
      (by rw [← hk' name]; exact hy)
    simp only [mem_allVersions] at h1 h2
    exact hinj name x y (Or.inr h1.1) (Or.inr (hdecl _ _ _ h2.1)) h1.2 h2.2 hxy


/-- C3 on the promotion workspace of the test suite. -/
theorem assembleFolds_exclusive_witness :
    (∀ p ∈ promotionProjects, wellTyped p.2 = true) ∧
      ∃ dependencies devDependencies,
        assembleFolds asciiLower promotionProjects defaultExclude =
          some (dependencies, devDependencies) ∧
        ∀ name, ¬ (dependencies name ≠ none ∧ devDependencies name ≠ none) :=
  ⟨by decide, assembleFolds_exclusive asciiLower defaultExclude promotionProjects (by decide)⟩

/-- C8 on a workspace with private dependencies. -/
theorem assembleFolds_keys_witness :
    (∀ p ∈ privateProjects, wellTyped p.2 = true) ∧
      ∃ dependencies devDependencies,
        assembleFolds asciiLower privateProjects defaultExclude =
          some (dependencies, devDependencies) ∧
        (∀ name, dependencies name ≠ none ↔
          ∃ v, Declares privateProjects "dependencies" name v ∧
            isAPrivateDependency asciiLower v defaultExclude = false) ∧
        (∀ name, devDependencies name ≠ none ↔
          (∃ v, Declares privateProjects "devDependencies" name v ∧
            isAPrivateDependency asciiLower v defaultExclude = false) ∧
          ¬ ∃ v, Declares privateProjects "dependencies" name v ∧
            isAPrivateDependency asciiLower v defaultExclude = false) :=
  ⟨by decide, assembleFolds_keys asciiLower defaultExclude privateProjects (by decide)⟩

/-- C4 (amended) on the two orders of the two-qualifier workspace. -/
theorem assembleFolds_perm_witness :
    qualifierProjects.Perm qualifierProjects.reverse ∧
      (∀ p ∈ qualifierProjects, wellTyped p.2 = true) ∧
      ∃ d dd d' dd',
        assembleFolds asciiLower qualifierProjects defaultExclude = some (d, dd) ∧
        assembleFolds asciiLower qualifierProjects.reverse defaultExclude = some (d', dd') ∧
        (∀ name, (d name).map stripQualifier = (d' name).map stripQualifier ∧
          (dd name).map stripQualifier = (dd' name).map stripQualifier) ∧
        ((∀ name v w,
            (Declares qualifierProjects "dependencies" name v ∨
              Declares qualifierProjects "devDependencies" name v) →
            (Declares qualifierProjects "dependencies" name w ∨
              Declares qualifierProjects "devDependencies" name w) →
            isAPrivateDependency asciiLower v defaultExclude = false →
            isAPrivateDependency asciiLower w defaultExclude = false →
            stripQualifier v = stripQualifier w → v = w) →
          d = d' ∧ dd = dd') :=
  ⟨(List.reverse_perm _).symm, by decide,
    assembleFolds_perm asciiLower defaultExclude qualifierProjects qualifierProjects.reverse
      (List.reverse_perm _).symm (by decide)⟩

/-! ## Single declarations: precedence and promotion -/

theorem extractDependencies_single (runeLower : Char → Char) (project name version : String)
    (deps : StrMap) (exclude : List String) :
    extractDependencies runeLower project (singleDeclaration "dependencies" name version)
        deps exclude =
      dependencyIteration runeLower exclude deps name (.str version) := by
  simp [extractDependencies, singleDeclaration, pathData, List.lookup]

theorem extractDevDependencies_single (runeLower : Char → Char)
    (project name version : String) (deps dev : StrMap) (exclude : List String) :
    extractDevDependencies runeLower project
        (singleDeclaration "devDependencies" name version) deps dev exclude =
      devDependencyIteration runeLower exclude deps dev name (.str version) := by
  simp [extractDevDependencies, singleDeclaration, pathData, List.lookup]

theorem set_set (m : StrMap) (k a b : String) : (m.set k a).set k b = m.set k b := by
  funext x
  by_cases h : x = k <;> simp [set_apply, h]

theorem shouldUpdate_of_lt {a b : String} (h : stripQualifier a < stripQualifier b) :
    shouldUpdate a b = true ∧ shouldUpdate b a = false := by
  refine ⟨(shouldUpdate_iff_lt a b).mpr h, ?_⟩
  cases hu : shouldUpdate b a with
  | false => rfl
  | true => exact absurd ((shouldUpdate_iff_lt b a).mp hu) (lt_asymm h)

/-- C5: for a package absent from the result and two non-excluded versions
`a`, `b` with `strip a < strip b`, folding the declaration of `a` and then that
of `b`, or `b` and then `a`, through `extractDependencies` leaves `dependencies`
with the single new entry `name: b`; through `extractDevDependencies` it leaves
`devDependencies` with the single new entry `name: b` and `dependencies` as it
was. -/
theorem fold_converges_to_greater (runeLower : Char → Char) (exclude : List String)
    (p1 p2 name a b : String) (deps dev : StrMap)
    (ha : isAPrivateDependency runeLower a exclude = false)
    (hb : isAPrivateDependency runeLower b exclude = false)
    (hlt : stripQualifier a < stripQualifier b)
    (hd : deps name = none) (hv : dev name = none) :
    ((extractDependencies runeLower p1 (singleDeclaration "dependencies" name a) deps
        exclude).bind
      (fun d => extractDependencies runeLower p2 (singleDeclaration "dependencies" name b) d
        exclude) = some (deps.set name b)) ∧
    ((extractDependencies runeLower p1 (singleDeclaration "dependencies" name b) deps
        exclude).bind
      (fun d => extractDependencies runeLower p2 (singleDeclaration "dependencies" name a) d
        exclude) = some (deps.set name b)) ∧
    ((extractDevDependencies runeLower p1 (singleDeclaration "devDependencies" name a) deps dev
        exclude).bind
      (fun r => extractDevDependencies runeLower p2
        (singleDeclaration "devDependencies" name b) r.1 r.2 exclude) =
        some (deps, dev.set name b)) ∧
    ((extractDevDependencies runeLower p1 (singleDeclaration "devDependencies" name b) deps dev
        exclude).bind
      (fun r => extractDevDependencies runeLower p2
        (singleDeclaration "devDependencies" name a) r.1 r.2 exclude) =
        some (deps, dev.set name b)) ∧
    (deps.set name b) name = some b ∧ (dev.set name b) name = some b := by
  obtain ⟨hab, hba⟩ := shouldUpdate_of_lt hlt
  simp only [extractDependencies_single, extractDevDependencies_single]
  refine ⟨?_, ?_, ?_, ?_, by simp [set_apply], by simp [set_apply]⟩
  · simp [dependencyIteration, ha, hb, hd, set_apply, hab, set_set]
  · simp [dependencyIteration, ha, hb, hd, set_apply, hba]
  · simp [devDependencyIteration, ha, hb, hd, hv, set_apply, hab, set_set]
  · simp [devDependencyIteration, ha, hb, hd, hv, set_apply, hba]

/-- C5 on the versions `~1.0.0` and `~1.0.1` of the test suite. -/
theorem fold_converges_to_greater_witness :
    isAPrivateDependency asciiLower "~1.0.0" defaultExclude = false ∧
    isAPrivateDependency asciiLower "~1.0.1" defaultExclude = false ∧
    stripQualifier "~1.0.0" < stripQualifier "~1.0.1" ∧
    StrMap.empty "devdep-a" = none ∧
    ((extractDependencies asciiLower "project-1"
        (singleDeclaration "dependencies" "devdep-a" "~1.0.0") StrMap.empty
        defaultExclude).bind
      (fun d => extractDependencies asciiLower "project-2"
        (singleDeclaration "dependencies" "devdep-a" "~1.0.1") d defaultExclude) =
        some (StrMap.empty.set "devdep-a" "~1.0.1")) :=
  ⟨by decide, by decide, String.lt_iff_toList_lt.mpr (by decide), rfl,
    (fold_converges_to_greater asciiLower defaultExclude "project-1" "project-2" "devdep-a"
      "~1.0.0" "~1.0.1" StrMap.empty StrMap.empty (by decide) (by decide)
      (String.lt_iff_toList_lt.mpr (by decide)) rfl rfl).1⟩

/-- C6: when `name` is a key of `dependencies` with value `v` and not a key of
`devDependencies`, a non-excluded dev declaration `name: w` makes
`dependencies[name]` equal to `w` if `shouldUpdate v w` and leaves it at `v`
otherwise; no other entry of `dependencies` changes, its key set is unchanged,
and `devDependencies` is unchanged. -/
theorem extractDevDependencies_promotion (runeLower : Char → Char) (exclude : List String)
    (project name v w : String) (deps dev : StrMap)
    (hd : deps name = some v) (hv : dev name = none)
    (hw : isAPrivateDependency runeLower w exclude = false) :
    ∃ deps',
      extractDevDependencies runeLower project (singleDeclaration "devDependencies" name w)
        deps dev exclude = some (deps', dev) ∧
      deps' name = (if shouldUpdate v w = true then some w else some v) ∧
      (∀ k, k ≠ name → deps' k = deps k) ∧
      (∀ k, deps' k ≠ none ↔ deps k ≠ none) := by
  rw [extractDevDependencies_single]
  by_cases hu : shouldUpdate v w = true
  · refine ⟨deps.set name w, by simp [devDependencyIteration, hw, hd, hu], ?_, ?_, ?_⟩
    · simp [set_apply, hu]
    · intro k hk; simp [set_apply, hk]
    · intro k
      by_cases hk : k = name
      · subst hk; simp [set_apply, hd]
      · simp [set_apply, hk]
  · refine ⟨deps, by simp [devDependencyIteration, hw, hd, hu], ?_, ?_, ?_⟩
    · simp [hu, hd]
    · intro k _; rfl
    · intro k; rfl

/-- C6 on a dependency `^2.5.0` met by the dev declaration `^2.6.1`. -/
theorem extractDevDependencies_promotion_witness :
    (StrMap.empty.set "somelib" "^2.5.0") "somelib" = some "^2.5.0" ∧
    StrMap.empty "somelib" = none ∧
    isAPrivateDependency asciiLower "^2.6.1" defaultExclude = false ∧
    ∃ deps',
      extractDevDependencies asciiLower "project-2"
        (singleDeclaration "devDependencies" "somelib" "^2.6.1")
        (StrMap.empty.set "somelib" "^2.5.0") StrMap.empty defaultExclude =
          some (deps', StrMap.empty) ∧
      deps' "somelib" = (if shouldUpdate "^2.5.0" "^2.6.1" = true then some "^2.6.1"
        else some "^2.5.0") ∧
      (∀ k, k ≠ "somelib" → deps' k = (StrMap.empty.set "somelib" "^2.5.0") k) ∧
      (∀ k, deps' k ≠ none ↔ (StrMap.empty.set "somelib" "^2.5.0") k ≠ none) :=
  ⟨by decide, rfl, by decide,
    extractDevDependencies_promotion asciiLower defaultExclude "project-2" "somelib"
      "^2.5.0" "^2.6.1" (StrMap.empty.set "somelib" "^2.5.0") StrMap.empty
      (by decide) rfl (by decide)⟩


/-! ## Exclusion -/

theorem foldlM_filter_skip {α β : Type} (f : β → α → Option β) (keep : α → Bool)
    (hskip : ∀ b a, keep a = false → f b a = some b) (l : List α) (b : β) :
    (l.filter keep).foldlM f b = l.foldlM f b := by
  induction l generalizing b with
  | nil => rfl
  | cons a rest ih =>
    cases hk : keep a with
    | false =>
      rw [List.filter_cons_of_neg (by simp [hk]), List.foldlM_cons, hskip b a hk]
      exact ih b
    | true =>
      rw [List.filter_cons_of_pos hk, List.foldlM_cons, List.foldlM_cons]
      cases f b a with
      | none => rfl
      | some b' => exact ih b'

theorem lookup_cons_eq (key : String) (m : String × JVal) (rest : List (String × JVal)) :
    List.lookup key (m :: rest) = if key = m.1 then some m.2 else List.lookup key rest := by
  obtain ⟨k, v⟩ := m
  by_cases h : key = k
  · subst h; simp [List.lookup]
  · have hb : (key == k) = false := by simpa using h
    simp [List.lookup, hb, h]

theorem dropExcludedMember_fst (runeLower : Char → Char) (exclude : List String)
    (m : String × JVal) : (dropExcludedMember runeLower exclude m).1 = m.1 := by
  unfold dropExcludedMember
  split <;> rfl

theorem dropExcludedMember_snd (runeLower : Char → Char) (exclude : List String)
    (m : String × JVal) (h : m.1 = "dependencies" ∨ m.1 = "devDependencies") :
    (dropExcludedMember runeLower exclude m).2 = dropExcludedValue runeLower exclude m.2 := by
  unfold dropExcludedMember
  rw [if_pos h]

theorem lookup_dropExcluded (runeLower : Char → Char) (exclude : List String) (key : String)
    (hkey : key = "dependencies" ∨ key = "devDependencies")
    (members : List (String × JVal)) :
    (members.map (dropExcludedMember runeLower exclude)).lookup key =
      (members.lookup key).map (dropExcludedValue runeLower exclude) := by
  induction members with
  | nil => rfl
  | cons m rest ih =>
    rw [List.map_cons, lookup_cons_eq, lookup_cons_eq, dropExcludedMember_fst, ih]
    by_cases hk : key = m.1
    · rw [if_pos hk, if_pos hk, dropExcludedMember_snd _ _ _ (hk ▸ hkey)]
      rfl
    · rw [if_neg hk, if_neg hk]

theorem declarations_dropExcluded (runeLower : Char → Char) (exclude : List String)
    (key : String) (hkey : key = "dependencies" ∨ key = "devDependencies") (parsed : JVal) :
    declarations (dropExcluded runeLower exclude parsed) key =
      dropExcludedEntries runeLower exclude (declarations parsed key) := by
  cases parsed with
  | obj members =>
    simp only [declarations, dropExcluded, pathData]
    rw [lookup_dropExcluded runeLower exclude key hkey]
    cases hl : members.lookup key with
    | none => rfl
    | some v => cases v <;> rfl
  | _ => rfl

theorem dependencyIteration_dropped (runeLower : Char → Char) (exclude : List String)
    (deps : StrMap) (entry : String × JVal)
    (h : (match entry.2 with
      | .str version => !isAPrivateDependency runeLower version exclude
      | _ => true) = false) :
    dependencyIteration runeLower exclude deps entry.1 entry.2 = some deps := by
  obtain ⟨name, value⟩ := entry
  cases value with
  | str version =>
    have hx : isAPrivateDependency runeLower version exclude = true := by simpa using h
    simp [dependencyIteration, hx]
  | _ => simp at h

theorem devDependencyIteration_dropped (runeLower : Char → Char) (exclude : List String)
    (r : StrMap × StrMap) (entry : String × JVal)
    (h : (match entry.2 with
      | .str version => !isAPrivateDependency runeLower version exclude
      | _ => true) = false) :
    devDependencyIteration runeLower exclude r.1 r.2 entry.1 entry.2 = some r := by
  obtain ⟨name, value⟩ := entry
  cases value with
  | str version =>
    have hx : isAPrivateDependency runeLower version exclude = true := by simpa using h
    simp [devDependencyIteration, hx]
  | _ => simp at h

theorem extractDependencies_dropExcluded (runeLower : Char → Char) (exclude : List String)
    (project : String) (parsed : JVal) (deps : StrMap) :
    extractDependencies runeLower project (dropExcluded runeLower exclude parsed) deps exclude =
      extractDependencies runeLower project parsed deps exclude := by
  rw [extractDependencies_eq_foldlM, extractDependencies_eq_foldlM,
    declarations_dropExcluded _ _ _ (Or.inl rfl)]
  exact foldlM_filter_skip _ _
    (fun b a h => dependencyIteration_dropped runeLower exclude b a h) _ _

theorem extractDevDependencies_dropExcluded (runeLower : Char → Char)
    (exclude : List String) (project : String) (parsed : JVal) (deps dev : StrMap) :
    extractDevDependencies runeLower project (dropExcluded runeLower exclude parsed) deps dev
        exclude =
      extractDevDependencies runeLower project parsed deps dev exclude := by
  rw [extractDevDependencies_eq_foldlM, extractDevDependencies_eq_foldlM,
    declarations_dropExcluded _ _ _ (Or.inr rfl)]
  exact foldlM_filter_skip _ _
    (fun b a h => devDependencyIteration_dropped runeLower exclude b a h) _ _

/-- C7: deleting from every manifest the pairs whose version matches the
exclusion set changes the result of neither fold operation, from any starting
maps, and so gives the same merged result; an excluded pair leaves both maps
as they are, whether or not its name is already a key. -/
theorem exclusion_leaves_no_trace (runeLower : Char → Char) (exclude : List String)
    (projects : List (String × JVal)) (project : String) (parsed : JVal)
    (name version : String) (deps dev : StrMap) :
    assembleFolds runeLower
        (projects.map fun p => (p.1, dropExcluded runeLower exclude p.2)) exclude =
      assembleFolds runeLower projects exclude ∧
    extractDependencies runeLower project (dropExcluded runeLower exclude parsed) deps exclude =
      extractDependencies runeLower project parsed deps exclude ∧
    extractDevDependencies runeLower project (dropExcluded runeLower exclude parsed) deps dev
        exclude =
      extractDevDependencies runeLower project parsed deps dev exclude ∧
    (isAPrivateDependency runeLower version exclude = true →
      extractDependencies runeLower project (singleDeclaration "dependencies" name version)
        deps exclude = some deps ∧
      extractDevDependencies runeLower project
        (singleDeclaration "devDependencies" name version) deps dev exclude =
          some (deps, dev)) := by
  refine ⟨?_, extractDependencies_dropExcluded _ _ _ _ _,
    extractDevDependencies_dropExcluded _ _ _ _ _ _, fun hx => ?_⟩
  · unfold assembleFolds
    simp only [List.foldlM_map, extractDependencies_dropExcluded,
      extractDevDependencies_dropExcluded]
  · rw [extractDependencies_single, extractDevDependencies_single]
    simp [dependencyIteration, devDependencyIteration, hx]

/-- C7 on a workspace with private dependencies and on an excluded pair whose
name is already a key. -/
theorem exclusion_leaves_no_trace_witness :
    isAPrivateDependency asciiLower "github.com/someorg/dep-a.git" defaultExclude = true ∧
    assembleFolds asciiLower
        (privateProjects.map fun p => (p.1, dropExcluded asciiLower defaultExclude p.2))
        defaultExclude =
      assembleFolds asciiLower privateProjects defaultExclude ∧
    extractDependencies asciiLower "project-1"
        (singleDeclaration "dependencies" "dep-b" "github.com/someorg/dep-a.git")
        (StrMap.empty.set "dep-b" "1.0.0") defaultExclude =
      some (StrMap.empty.set "dep-b" "1.0.0") :=
  have h := exclusion_leaves_no_trace asciiLower defaultExclude privateProjects "project-1"
    (packageJSON [] []) "dep-b" "github.com/someorg/dep-a.git"
    (StrMap.empty.set "dep-b" "1.0.0") StrMap.empty
  ⟨by decide, h.1, (h.2.2.2 (by decide)).1⟩


/-! ## Values that are not strings -/

/-- C9 (the code at the failing input): a `dependencies` or `devDependencies`
object that holds a number as a version makes the fold operation panic, from
any starting maps; an absent or empty object leaves the maps unchanged. -/
theorem extract_panics_on_number (runeLower : Char → Char) (exclude : List String)
    (project name : String) (n : Int) (deps dev : StrMap) :
    extractDependencies runeLower project
      (.obj [("dependencies", .obj [(name, .num n)])]) deps exclude = none ∧
    extractDevDependencies runeLower project
      (.obj [("devDependencies", .obj [(name, .num n)])]) deps dev exclude = none ∧
    extractDependencies runeLower project (.obj []) deps exclude = some deps ∧
    extractDependencies runeLower project (.obj [("dependencies", .obj [])]) deps exclude =
      some deps ∧
    extractDevDependencies runeLower project (.obj []) deps dev exclude = some (deps, dev) ∧
    extractDevDependencies runeLower project (.obj [("devDependencies", .obj [])]) deps dev
      exclude = some (deps, dev) :=
  ⟨rfl, rfl, rfl, rfl, rfl, rfl⟩

/-! ## Lexicographic comparison -/

theorem declarations_packageJSON_dependencies (ds vs : List (String × String)) :
    declarations (packageJSON ds vs) "dependencies" = ds.map fun e => (e.1, JVal.str e.2) := by
  simp [declarations, packageJSON, pathData, List.lookup]

theorem declarations_packageJSON_devDependencies (ds vs : List (String × String)) :
    declarations (packageJSON ds vs) "devDependencies" =
      vs.map fun e => (e.1, JVal.str e.2) := by
  simp [declarations, packageJSON, pathData, List.lookup]

/-- C10: `shouldUpdate("10.0.0", "9.0.0")` is true and
`shouldUpdate("9.0.0", "10.0.0")` is false, so two projects that declare the
same dependency with `9.0.0` and `10.0.0` (neither of them excluded) end with
`9.0.0` in the merged `dependencies` map, in either project order. -/
theorem nine_beats_ten (runeLower : Char → Char) (exclude : List String)
    (p1 p2 name : String)
    (h9 : isAPrivateDependency runeLower "9.0.0" exclude = false)
    (h10 : isAPrivateDependency runeLower "10.0.0" exclude = false) :
    shouldUpdate "10.0.0" "9.0.0" = true ∧ shouldUpdate "9.0.0" "10.0.0" = false ∧
    (∃ d dd, assembleFolds runeLower
        [(p1, packageJSON [(name, "9.0.0")] []), (p2, packageJSON [(name, "10.0.0")] [])]
        exclude = some (d, dd) ∧ d name = some "9.0.0" ∧ dd name = none) ∧
    (∃ d dd, assembleFolds runeLower
        [(p2, packageJSON [(name, "10.0.0")] []), (p1, packageJSON [(name, "9.0.0")] [])]
        exclude = some (d, dd) ∧ d name = some "9.0.0" ∧ dd name = none) := by
  have hu1 : shouldUpdate "10.0.0" "9.0.0" = true := by decide
  have hu2 : shouldUpdate "9.0.0" "10.0.0" = false := by decide
  have hwt : ∀ v, wellTyped (packageJSON [(name, v)] []) = true := by
    intro v
    simp [wellTyped, declarations_packageJSON_dependencies,
      declarations_packageJSON_devDependencies, allStrings]
  refine ⟨hu1, hu2, ?_, ?_⟩
  · obtain ⟨d, dd, hr, hk⟩ := assembleFolds_slots runeLower exclude
      [(p1, packageJSON [(name, "9.0.0")] []), (p2, packageJSON [(name, "10.0.0")] [])]
      (by intro p hp; simp at hp; rcases hp with rfl | rfl <;> exact hwt _)
    refine ⟨d, dd, hr, ?_⟩
    have h := hk name
    simp [allVersions, declarations_packageJSON_dependencies,
      declarations_packageJSON_devDependencies, versionsOf, pick, h9, h10, hu2] at h
    exact h
  · obtain ⟨d, dd, hr, hk⟩ := assembleFolds_slots runeLower exclude
      [(p2, packageJSON [(name, "10.0.0")] []), (p1, packageJSON [(name, "9.0.0")] [])]
      (by intro p hp; simp at hp; rcases hp with rfl | rfl <;> exact hwt _)
    refine ⟨d, dd, hr, ?_⟩
    have h := hk name
    simp [allVersions, declarations_packageJSON_dependencies,
      declarations_packageJSON_devDependencies, versionsOf, pick, h9, h10, hu1] at h
    exact h

/-- C10 with the default exclusion patterns. -/
theorem nine_beats_ten_witness :
    isAPrivateDependency asciiLower "9.0.0" defaultExclude = false ∧
    isAPrivateDependency asciiLower "10.0.0" defaultExclude = false ∧
    shouldUpdate "10.0.0" "9.0.0" = true ∧ shouldUpdate "9.0.0" "10.0.0" = false ∧
    (∃ d dd, assembleFolds asciiLower
        [("project-1", packageJSON [("dep-a", "9.0.0")] []),
          ("project-2", packageJSON [("dep-a", "10.0.0")] [])]
        defaultExclude = some (d, dd) ∧ d "dep-a" = some "9.0.0" ∧ dd "dep-a" = none) ∧
    (∃ d dd, assembleFolds asciiLower
        [("project-2", packageJSON [("dep-a", "10.0.0")] []),
          ("project-1", packageJSON [("dep-a", "9.0.0")] [])]
        defaultExclude = some (d, dd) ∧ d "dep-a" = some "9.0.0" ∧ dd "dep-a" = none) :=
  ⟨by decide, by decide,
    nine_beats_ten asciiLower defaultExclude "project-1" "project-2" "dep-a"
      (by decide) (by decide)⟩


/-! ## When the fold operations panic -/

theorem foldlM_dependencyIteration_eq_none (runeLower : Char → Char) (exclude : List String)
    (data : List (String × JVal)) (hs : allStrings data = false) (deps : StrMap) :
    data.foldlM
      (fun d entry => dependencyIteration runeLower exclude d entry.1 entry.2) deps = none := by
  induction data generalizing deps with
  | nil => simp [allStrings] at hs
  | cons entry rest ih =>
    obtain ⟨name, value⟩ := entry
    cases value with
    | str version =>
      obtain ⟨d1, h1, _⟩ := dependencyIteration_str runeLower exclude deps name version
      simp only [List.foldlM_cons, h1, Option.bind_eq_bind, Option.some_bind]
      exact ih (by simpa [allStrings] using hs) d1
    | _ => simp [List.foldlM_cons, dependencyIteration]

theorem foldlM_devDependencyIteration_eq_none (runeLower : Char → Char)
    (exclude : List String) (data : List (String × JVal)) (hs : allStrings data = false)
    (r : StrMap × StrMap) :
    data.foldlM
      (fun r entry => devDependencyIteration runeLower exclude r.1 r.2 entry.1 entry.2) r
        = none := by
  induction data generalizing r with
  | nil => simp [allStrings] at hs
  | cons entry rest ih =>
    obtain ⟨name, value⟩ := entry
    cases value with
    | str version =>
      obtain ⟨r1, h1, _⟩ := devDependencyIteration_str runeLower exclude r.1 r.2 name version
      simp only [List.foldlM_cons, h1, Option.bind_eq_bind, Option.some_bind]
      exact ih (by simpa [allStrings] using hs) r1
    | _ => simp [List.foldlM_cons, devDependencyIteration]

/-- `extractDependencies` panics exactly when some value of the `dependencies`
object is not a string. -/
theorem extractDependencies_eq_none_iff (runeLower : Char → Char) (exclude : List String)
    (project : String) (parsed : JVal) (deps : StrMap) :
    extractDependencies runeLower project parsed deps exclude = none ↔
      allStrings (declarations parsed "dependencies") = false := by
  rw [extractDependencies_eq_foldlM]
  cases hs : allStrings (declarations parsed "dependencies") with
  | false => simp [foldlM_dependencyIteration_eq_none runeLower exclude _ hs deps]
  | true =>
    obtain ⟨d1, h1, _⟩ := foldlM_dependencyIteration runeLower exclude _ hs deps
    simp [h1]

/-- `extractDevDependencies` panics exactly when some value of the
`devDependencies` object is not a string. -/
theorem extractDevDependencies_eq_none_iff (runeLower : Char → Char)
    (exclude : List String) (project : String) (parsed : JVal) (deps dev : StrMap) :
    extractDevDependencies runeLower project parsed deps dev exclude = none ↔
      allStrings (declarations parsed "devDependencies") = false := by
  rw [extractDevDependencies_eq_foldlM]
  cases hs : allStrings (declarations parsed "devDependencies") with
  | false => simp [foldlM_devDependencyIteration_eq_none runeLower exclude _ hs (deps, dev)]
  | true =>
    obtain ⟨r1, h1, _⟩ := foldlM_devDependencyIteration runeLower exclude _ hs (deps, dev)
    simp [h1]


/-! ## `getProjectFolders` -/

theorem appendMatches_eq (name : String) (filters acc : List String) :
    appendMatches name filters acc =
      acc ++ List.replicate (filters.countP fun filter => stringsContains name filter) name := by
  induction filters generalizing acc with
  | nil => simp [appendMatches]
  | cons f rest ih =>
    unfold appendMatches
    by_cases h : stringsContains name f = true
    · rw [if_pos h, ih]
      simp [List.countP_cons, h, List.replicate_succ]
    · rw [if_neg h, ih]
      simp [List.countP_cons, h]

theorem scanDirs_eq (filters : List String) (dirs : List FileInfo) (acc : List String) :
    scanDirs filters dirs acc = acc ++ dirs.flatMap (occurrences filters) := by
  induction dirs generalizing acc with
  | nil => simp [scanDirs]
  | cons d rest ih =>
    unfold scanDirs
    rw [List.flatMap_cons]
    by_cases hd : (d.isDir && !hasPrefix d.name ".") = true
    · by_cases hf : filters.length > 0
      · rw [if_pos hd, if_pos hf, ih, appendMatches_eq]
        simp only [occurrences, hd, hf, if_true, List.append_assoc]
      · rw [if_pos hd, if_neg hf, ih]
        simp only [occurrences, hd, hf, if_true, if_false, List.append_assoc]
    · rw [if_neg hd, ih]
      simp only [occurrences, hd, Bool.false_eq_true, if_false, List.nil_append]

/-- C14 (the code at the failing input): `getProjectFolders` lists an eligible
directory once for every filter pattern that its name contains, so the
directory `web-api` is listed twice under the filters `web` and `api`, and
`project-1` twice under the filters `project` and `1`; without filters every
eligible directory is listed once. -/
theorem getProjectFolders_repeats (filters : List String) (dirs : List FileInfo) :
    scanDirs filters dirs [] = dirs.flatMap (occurrences filters) ∧
    scanDirs ["web", "api"] [⟨"web-api", true⟩] [] = ["web-api", "web-api"] ∧
    getProjectFolders sampleEnv "/work/ginkgo_tests" ["project", "1"] =
      .ok ["project-1", "project-1", "project-2"] ∧
    scanDirs [] dirs [] =
      (dirs.filter fun d => d.isDir && !hasPrefix d.name ".").map fun d => d.name := by
  refine ⟨by rw [scanDirs_eq]; rfl, by decide, by rfl, ?_⟩
  rw [scanDirs_eq, List.nil_append]
  induction dirs with
  | nil => rfl
  | cons d rest ih =>
    rw [List.flatMap_cons, ih]
    by_cases hd : (d.isDir && !hasPrefix d.name ".") = true
    · simp only [List.filter_cons, hd, if_true, List.map_cons]
      simp [occurrences, hd]
    · simp only [List.filter_cons, hd, Bool.false_eq_true, if_false]
      simp [occurrences, hd]


/-! ## The retained version -/

theorem pick_ge (runeLower : Char → Char) (exclude : List String)
    (slot : Option String) (v x : String) (h : pick runeLower exclude slot v = some x) :
    (∀ c, slot = some c → stripQualifier c ≤ stripQualifier x) ∧
      (isAPrivateDependency runeLower v exclude = false →
        stripQualifier v ≤ stripQualifier x) := by
  unfold pick at h
  by_cases hx : isAPrivateDependency runeLower v exclude = true
  · simp only [hx, if_true] at h
    refine ⟨fun c hc => ?_, fun hv => ?_⟩
    · rw [hc] at h
      rw [Option.some.inj h]
    · rw [hx] at hv
      exact absurd hv (by simp)
  · have hx' : isAPrivateDependency runeLower v exclude = false := by simpa using hx
    simp only [hx', Bool.false_eq_true, if_false] at h
    cases slot with
    | none =>
      simp only [Option.some.injEq] at h
      subst h
      exact ⟨fun c hc => by simp at hc, fun _ => le_refl _⟩
    | some val =>
      by_cases hu : shouldUpdate val v = true
      · simp only [hu, if_true, Option.some.injEq] at h
        subst h
        have hlt := (shouldUpdate_iff_lt val v).mp hu
        refine ⟨fun c hc => ?_, fun _ => le_refl _⟩
        rw [← Option.some.inj hc]
        exact le_of_lt hlt
      · simp only [hu, Bool.false_eq_true, if_false, Option.some.injEq] at h
        subst h
        have hle : stripQualifier v ≤ stripQualifier val :=
          not_lt.mp (fun hlt => hu ((shouldUpdate_iff_lt val v).mpr hlt))
        refine ⟨fun c hc => ?_, fun _ => hle⟩
        rw [← Option.some.inj hc]

theorem foldl_pick_ge (runeLower : Char → Char) (exclude : List String)
    (versions : List String) (slot : Option String) (x : String)
    (h : versions.foldl (pick runeLower exclude) slot = some x) :
    (∀ c, slot = some c → stripQualifier c ≤ stripQualifier x) ∧
      (∀ v ∈ versions, isAPrivateDependency runeLower v exclude = false →
        stripQualifier v ≤ stripQualifier x) := by
  induction versions generalizing slot with
  | nil =>
    refine ⟨fun c hc => ?_, fun v hv => by simp at hv⟩
    rw [List.foldl_nil, hc] at h
    rw [Option.some.inj h]
  | cons w rest ih =>
    rw [List.foldl_cons] at h
    obtain ⟨h1, h2⟩ := ih _ h
    have hstep : ∀ y, pick runeLower exclude slot w = some y →
        stripQualifier y ≤ stripQualifier x := h1
    refine ⟨fun c hc => ?_, fun v hv hok => ?_⟩
    · cases hp : pick runeLower exclude slot w with
      | none => rw [hc] at hp; exact absurd hp (pick_some_ne_none _ _ _ _)
      | some y =>
        exact le_trans ((pick_ge runeLower exclude slot w y hp).1 c hc) (hstep y hp)
    · rcases List.mem_cons.mp hv with rfl | hv'
      · cases hp : pick runeLower exclude slot v with
        | none =>
          have : pick runeLower exclude slot v ≠ none := by
            cases slot with
            | none => simp [pick, hok]
            | some val => exact pick_some_ne_none _ _ _ _
          exact absurd hp this
        | some y =>
          exact le_trans ((pick_ge runeLower exclude slot v y hp).2 hok) (hstep y hp)
      · exact h2 v hv' hok

theorem slots_fst_ge (runeLower : Char → Char) (exclude : List String)
    (D V : List String) (x : String)
    (h : (V.foldl (pickDev runeLower exclude) (D.foldl (pick runeLower exclude) none, none)).1
      = some x) :
    ∀ v, v ∈ D ∨ v ∈ V → isAPrivateDependency runeLower v exclude = false →
      stripQualifier v ≤ stripQualifier x := by
  cases ha : D.foldl (pick runeLower exclude) none with
  | none =>
    rw [ha, foldl_pickDev_none] at h
    simp at h
  | some y =>
    rw [ha, foldl_pickDev_some] at h
    have hall : (D ++ V).foldl (pick runeLower exclude) none = some x := by
      rw [List.foldl_append, ha]
      exact h
    intro v hv hok
    exact (foldl_pick_ge runeLower exclude (D ++ V) none x hall).2 v
      (List.mem_append.mpr hv) hok

theorem slots_snd_ge (runeLower : Char → Char) (exclude : List String)
    (D V : List String) (x : String)
    (h : (V.foldl (pickDev runeLower exclude) (D.foldl (pick runeLower exclude) none, none)).2
      = some x) :
    ∀ v ∈ V, isAPrivateDependency runeLower v exclude = false →
      stripQualifier v ≤ stripQualifier x := by
  cases ha : D.foldl (pick runeLower exclude) none with
  | none =>
    rw [ha, foldl_pickDev_none] at h
    exact (foldl_pick_ge runeLower exclude V none x h).2
  | some y =>
    rw [ha, foldl_pickDev_some] at h
    simp at h

/-- C13: on every list of manifests the two passes end with a pair of maps; a
value stored in `dependencies` is a non-excluded version declared for its name
(under `dependencies` or `devDependencies`) and no non-excluded version
declared for that name under either member has a greater stripped form; a
value stored in `devDependencies` is a non-excluded version declared for its
name under `devDependencies` and no non-excluded version declared for that
name under `devDependencies` has a greater stripped form. -/
theorem retained_version_is_highest (runeLower : Char → Char) (exclude : List String)
    (projects : List (String × JVal)) (hw : ∀ p ∈ projects, wellTyped p.2 = true) :
    ∃ dependencies devDependencies,
      assembleFolds runeLower projects exclude = some (dependencies, devDependencies) ∧
      (∀ name x, dependencies name = some x →
        ((Declares projects "dependencies" name x ∨
            Declares projects "devDependencies" name x) ∧
          isAPrivateDependency runeLower x exclude = false) ∧
        ∀ v, (Declares projects "dependencies" name v ∨
            Declares projects "devDependencies" name v) →
          isAPrivateDependency runeLower v exclude = false →
          ¬ stripQualifier x < stripQualifier v) ∧
      (∀ name x, devDependencies name = some x →
        (Declares projects "devDependencies" name x ∧
          isAPrivateDependency runeLower x exclude = false) ∧
        ∀ v, Declares projects "devDependencies" name v →
          isAPrivateDependency runeLower v exclude = false →
          ¬ stripQualifier x < stripQualifier v) := by
  obtain ⟨d, dd, hr, hk⟩ := assembleFolds_slots runeLower exclude projects hw
  refine ⟨d, dd, hr, fun name x hx => ?_, fun name x hx => ?_⟩
  · have hfst : (List.foldl (pickDev runeLower exclude)
        (List.foldl (pick runeLower exclude) none (allVersions name "dependencies" projects),
          none) (allVersions name "devDependencies" projects)).1 = some x := by
      rw [← hk name]; exact hx
    have hmem := slots_fst_eq_some runeLower exclude _ _ x hfst
    have hge := slots_fst_ge runeLower exclude _ _ x hfst
    simp only [mem_allVersions] at hmem hge
    exact ⟨hmem, fun v hv hok => not_lt.mpr (hge v hv hok)⟩
  · have hsnd : (List.foldl (pickDev runeLower exclude)
        (List.foldl (pick runeLower exclude) none (allVersions name "dependencies" projects),
          none) (allVersions name "devDependencies" projects)).2 = some x := by
      rw [← hk name]; exact hx
    have hmem := slots_snd_eq_some runeLower exclude _ _ x hsnd
    have hge := slots_snd_ge runeLower exclude _ _ x hsnd
    simp only [mem_allVersions] at hmem hge
    exact ⟨hmem, fun v hv hok => not_lt.mpr (hge v hv hok)⟩

/-- C13 on the promotion workspace of the test suite. -/
theorem retained_version_is_highest_witness :
    (∀ p ∈ promotionProjects, wellTyped p.2 = true) ∧
    ∃ dependencies devDependencies,
      assembleFolds asciiLower promotionProjects defaultExclude =
        some (dependencies, devDependencies) ∧
      (∀ name x, dependencies name = some x →
        ((Declares promotionProjects "dependencies" name x ∨
            Declares promotionProjects "devDependencies" name x) ∧
          isAPrivateDependency asciiLower x defaultExclude = false) ∧
        ∀ v, (Declares promotionProjects "dependencies" name v ∨
            Declares promotionProjects "devDependencies" name v) →
          isAPrivateDependency asciiLower v defaultExclude = false →
          ¬ stripQualifier x < stripQualifier v) ∧
      (∀ name x, devDependencies name = some x →
        (Declares promotionProjects "devDependencies" name x ∧
          isAPrivateDependency asciiLower x defaultExclude = false) ∧
        ∀ v, Declares promotionProjects "devDependencies" name v →
          isAPrivateDependency asciiLower v defaultExclude = false →
          ¬ stripQualifier x < stripQualifier v) :=
  ⟨by decide,
    retained_version_is_highest asciiLower defaultExclude promotionProjects (by decide)⟩


/-! ## The `assemble` action -/

theorem dependenciesPass_fst (runeLower : Char → Char) (exclude : List String)
    (ps : List (String × JVal)) (deps : StrMap) (events : List Event) :
    (dependenciesPass runeLower exclude ps deps events).1 =
      ps.foldlM (fun d p => extractDependencies runeLower p.1 p.2 d exclude) deps := by
  induction ps generalizing deps events with
  | nil => rfl
  | cons p rest ih =>
    unfold dependenciesPass
    rw [List.foldlM_cons]
    cases extractDependencies runeLower p.1 p.2 deps exclude with
    | none => rfl
    | some d1 => exact ih d1 _

theorem dependenciesPass_snd (runeLower : Char → Char) (exclude : List String)
    (ps : List (String × JVal)) (deps : StrMap) (events : List Event) (d : StrMap)
    (h : (dependenciesPass runeLower exclude ps deps events).1 = some d) :
    (dependenciesPass runeLower exclude ps deps events).2 =
      events ++ ps.map fun p => Event.extractDependencies p.1 := by
  induction ps generalizing deps events with
  | nil => simp [dependenciesPass]
  | cons p rest ih =>
    unfold dependenciesPass at h ⊢
    cases he : extractDependencies runeLower p.1 p.2 deps exclude with
    | none => rw [he] at h; simp at h
    | some d1 =>
      rw [he] at h
      simp only [] at h ⊢
      rw [ih d1 _ h]
      simp

theorem devDependenciesPass_fst (runeLower : Char → Char) (exclude : List String)
    (ps : List (String × JVal)) (maps : StrMap × StrMap) (events : List Event) :
    (devDependenciesPass runeLower exclude ps maps events).1 =
      ps.foldlM (fun r p => extractDevDependencies runeLower p.1 p.2 r.1 r.2 exclude) maps := by
  induction ps generalizing maps events with
  | nil => rfl
  | cons p rest ih =>
    unfold devDependenciesPass
    rw [List.foldlM_cons]
    cases extractDevDependencies runeLower p.1 p.2 maps.1 maps.2 exclude with
    | none => rfl
    | some r1 => exact ih r1 _

theorem devDependenciesPass_snd (runeLower : Char → Char) (exclude : List String)
    (ps : List (String × JVal)) (maps : StrMap × StrMap) (events : List Event)
    (r : StrMap × StrMap)
    (h : (devDependenciesPass runeLower exclude ps maps events).1 = some r) :
    (devDependenciesPass runeLower exclude ps maps events).2 =
      events ++ ps.map fun p => Event.extractDevDependencies p.1 := by
  induction ps generalizing maps events with
  | nil => simp [devDependenciesPass]
  | cons p rest ih =>
    unfold devDependenciesPass at h ⊢
    cases he : extractDevDependencies runeLower p.1 p.2 maps.1 maps.2 exclude with
    | none => rw [he] at h; simp at h
    | some r1 =>
      rw [he] at h
      simp only [] at h ⊢
      rw [ih r1 _ h]
      simp

theorem loadManifests_error (env : Env) (root : String) (dirs : List String)
    (dir : String) (err : GoError) (hmem : dir ∈ dirs)
    (hstat : env.stat (env.join [root, dir, PackageJSON]) = true)
    (hparse : env.parseJSONFile (env.join [root, dir, PackageJSON]) = .error err)
    (parsed : List (String × JVal)) :
    ∃ err', loadManifests env root dirs parsed = .error err' := by
  induction dirs generalizing parsed with
  | nil => simp at hmem
  | cons d rest ih =>
    unfold loadManifests
    by_cases hs : env.stat (env.join [root, d, PackageJSON]) = true
    · simp only [hs, if_true]
      cases hp : env.parseJSONFile (env.join [root, d, PackageJSON]) with
      | error e => exact ⟨e, rfl⟩
      | ok v =>
        rcases List.mem_cons.mp hmem with rfl | hrest
        · rw [hparse] at hp; simp at hp
        · exact ih hrest _
    · simp only [hs, Bool.false_eq_true, if_false]
      rcases List.mem_cons.mp hmem with rfl | hrest
      · exact absurd hstat hs
      · exact ih hrest _

/-- C11: when the manifest of some listed project directory exists and fails
to parse, the action returns an error without having called
`extractDependencies` or `extractDevDependencies` and without having written
the merged manifest; a directory whose `package.json` cannot be stat-ed is
passed over by the loading loop. -/
theorem malformed_manifest_aborts (env : Env) (runeLower : Char → Char)
    (arg root : String) (exclude filter projectDirectories : List String) :
    (env.abs arg = .ok root →
      getProjectFolders env root filter = .ok projectDirectories →
      ∀ dir err, dir ∈ projectDirectories →
        env.stat (env.join [root, dir, PackageJSON]) = true →
        env.parseJSONFile (env.join [root, dir, PackageJSON]) = .error err →
        ∃ err', assembleAction env runeLower [arg] exclude filter = (.error err', [])) ∧
    (∀ dir rest parsed, env.stat (env.join [root, dir, PackageJSON]) = false →
      loadManifests env root (dir :: rest) parsed = loadManifests env root rest parsed) := by
  refine ⟨fun habs hdirs dir err hmem hstat hparse => ?_, fun dir rest parsed hstat => ?_⟩
  · obtain ⟨err', hl⟩ :=
      loadManifests_error env root projectDirectories dir err hmem hstat hparse []
    exact ⟨err', by simp only [assembleAction, habs, hdirs, hl]⟩
  · rw [loadManifests]
    simp only [hstat, Bool.false_eq_true, if_false]

/-- C11 on the workspace whose second manifest is the text `not json`; its
directory `docs` has no manifest. -/
theorem malformed_manifest_aborts_witness :
    brokenEnv.abs "ginkgo_tests" = .ok "/work/ginkgo_tests" ∧
    getProjectFolders brokenEnv "/work/ginkgo_tests" [] =
      .ok ["docs", "project-1", "project-2"] ∧
    brokenEnv.stat (brokenEnv.join ["/work/ginkgo_tests", "project-2", PackageJSON]) = true ∧
    brokenEnv.stat (brokenEnv.join ["/work/ginkgo_tests", "docs", PackageJSON]) = false ∧
    (∃ err', assembleAction brokenEnv asciiLower ["ginkgo_tests"] defaultExclude [] =
      (.error err', [])) ∧
    loadManifests brokenEnv "/work/ginkgo_tests" ["docs", "project-1"] [] =
      loadManifests brokenEnv "/work/ginkgo_tests" ["project-1"] [] :=
  have h := malformed_manifest_aborts brokenEnv asciiLower "ginkgo_tests"
    "/work/ginkgo_tests" defaultExclude [] ["docs", "project-1", "project-2"]
  ⟨rfl, rfl, by decide, by decide,
    h.1 rfl rfl "project-2" "invalid character 'o' in literal null (expecting 'u')"
      (by decide) (by decide) rfl,
    h.2 "docs" ["project-1"] [] (by decide)⟩

/-- C12: a run of the action that returns `nil` has loaded the manifests of the
listed directories, run the two passes over them, and written to
`package.json` the value whose name is `triforce-` followed by the base name
of the root, whose description is `automatically generated by triforce`, and
whose two maps are the maps left by the passes; this write is its last call
and its only write. -/
theorem assembleAction_emits (env : Env) (runeLower : Char → Char)
    (args exclude filter : List String)
    (hok : (assembleAction env runeLower args exclude filter).1 = Exit.ok) :
    ∃ arg root projectDirectories parsed dependencies devDependencies,
      args = [arg] ∧ env.abs arg = .ok root ∧
      getProjectFolders env root filter = .ok projectDirectories ∧
      loadManifests env root projectDirectories [] = .ok parsed ∧
      assembleFolds runeLower parsed exclude = some (dependencies, devDependencies) ∧
      (assembleAction env runeLower args exclude filter).2 =
        (parsed.map fun p => Event.extractDependencies p.1) ++
        (parsed.map fun p => Event.extractDevDependencies p.1) ++
        [Event.writeFile "package.json"
          { Name := "triforce-" ++ pathBase root
            Description := "automatically generated by triforce"
            Dependencies := dependencies
            DevDependencies := devDependencies }] := by
  match args with
  | [] => simp [assembleAction] at hok
  | _ :: _ :: _ => simp [assembleAction] at hok
  | [arg] =>
    cases habs : env.abs arg with
    | error e => simp [assembleAction, habs] at hok
    | ok root =>
      cases hdirs : getProjectFolders env root filter with
      | error e => simp [assembleAction, habs, hdirs] at hok
      | ok dirs =>
        cases hload : loadManifests env root dirs [] with
        | error e => simp [assembleAction, habs, hdirs, hload] at hok
        | ok parsed =>
          cases hd : dependenciesPass runeLower exclude parsed StrMap.empty [] with
          | mk od ev1 =>
          cases od with
          | none => simp [assembleAction, habs, hdirs, hload, hd] at hok
          | some d1 =>
            cases hv : devDependenciesPass runeLower exclude parsed (d1, StrMap.empty) ev1 with
            | mk or ev2 =>
            cases or with
            | none => simp [assembleAction, habs, hdirs, hload, hd, hv] at hok
            | some r =>
              have hd1 := dependenciesPass_fst runeLower exclude parsed StrMap.empty []
              have hd2 := dependenciesPass_snd runeLower exclude parsed StrMap.empty [] d1
                (by rw [hd])
              have hv1 := devDependenciesPass_fst runeLower exclude parsed
                (d1, StrMap.empty) ev1
              have hv2 := devDependenciesPass_snd runeLower exclude parsed
                (d1, StrMap.empty) ev1 r (by rw [hv])
              rw [hd] at hd1 hd2
              rw [hv] at hv1 hv2
              simp only [List.nil_append] at hd2
              simp only [] at hd1 hd2 hv1 hv2
              subst hd2
              subst hv2
              refine ⟨arg, root, dirs, parsed, r.1, r.2, rfl, habs, hdirs, hload, ?_, ?_⟩
              · unfold assembleFolds
                rw [← hd1]
                simp only []
                rw [← hv1]
              · cases hwr : env.writeFile "package.json" (mergedManifest root r.1 r.2) with
                | error e => simp [assembleAction, habs, hdirs, hload, hd, hv, hwr] at hok
                | ok u =>
                  simp only [mergedManifest] at hwr
                  simp only [assembleAction, habs, hdirs, hload, hd, hv, hwr, mergedManifest]

theorem takeWhile_append_stop {α : Type} (p : α → Bool) (l r : List α) (a : α)
    (hl : ∀ x ∈ l, p x = true) (ha : p a = false) :
    (l ++ a :: r).takeWhile p = l := by
  induction l with
  | nil => simp [List.takeWhile_cons, ha]
  | cons x xs ih =>
    have hx : p x = true := hl x (List.mem_cons_self _ _)
    rw [List.cons_append, List.takeWhile_cons, hx]
    simp only [if_true]
    rw [ih (fun y hy => hl y (List.mem_cons_of_mem _ hy))]

/-- The base name of `parent/base` is `base` when `base` is not empty and holds
no slash. -/
theorem pathBase_join (parent base : String) (hne : base.data ≠ [])
    (hns : ∀ c ∈ base.data, c ≠ '/') :
    pathBase (parent ++ "/" ++ base) = base := by
  obtain ⟨pl⟩ := parent
  obtain ⟨bl⟩ := base
  simp only at hne hns
  have hdata : (String.mk pl ++ "/" ++ String.mk bl).data = pl ++ '/' :: bl := by
    simp [String.data_append]
  have hrev : (pl ++ '/' :: bl).reverse = bl.reverse ++ '/' :: pl.reverse := by simp
  have hnot : ∀ x ∈ bl.reverse, (x != '/') = true := by
    intro x hx
    simpa using hns x (List.mem_reverse.mp hx)
  have hdrop : (bl.reverse ++ '/' :: pl.reverse).dropWhile (fun c => c == '/') =
      bl.reverse ++ '/' :: pl.reverse := by
    cases hb : bl.reverse with
    | nil => exact absurd (List.reverse_eq_nil_iff.mp hb) hne
    | cons c cs =>
      have hc : (c == '/') = false := by
        have := hns c (List.mem_reverse.mp (by rw [hb]; exact List.mem_cons_self _ _))
        simpa using this
      rw [List.cons_append, List.dropWhile_cons, hc]
      simp
  have htake : (bl.reverse ++ '/' :: pl.reverse).takeWhile (fun c => c != '/') = bl.reverse :=
    takeWhile_append_stop _ _ _ _ hnot (by simp)
  unfold pathBase
  rw [hdata]
  have hnonempty : (pl ++ '/' :: bl).isEmpty = false := by
    cases pl <;> rfl
  simp only [hnonempty, Bool.false_eq_true, if_false, hrev, hdrop, List.reverse_reverse, htake]
  have : bl.isEmpty = false := by
    cases bl with
    | nil => exact absurd rfl hne
    | cons _ _ => rfl
  simp [this]

/-- C12 on the sample workspace: the run succeeds and writes the value named
`triforce-ginkgo_tests` that holds `somelib` once, as a dependency. -/
theorem assembleAction_emits_witness :
    (assembleAction sampleEnv asciiLower ["ginkgo_tests"] defaultExclude []).1 = Exit.ok ∧
    ((assembleAction sampleEnv asciiLower ["ginkgo_tests"] defaultExclude []).2.filterMap
      fun event =>
        match event with
        | .writeFile name t =>
          some (name, t.Name, t.Description, t.Dependencies "somelib",
            t.DevDependencies "somelib")
        | _ => none) =
      [("package.json", "triforce-ginkgo_tests", "automatically generated by triforce",
        some "^2.6.1", none)] ∧
    ∃ arg root projectDirectories parsed dependencies devDependencies,
      ["ginkgo_tests"] = [arg] ∧ sampleEnv.abs arg = .ok root ∧
      getProjectFolders sampleEnv root [] = .ok projectDirectories ∧
      loadManifests sampleEnv root projectDirectories [] = .ok parsed ∧
      assembleFolds asciiLower parsed defaultExclude = some (dependencies, devDependencies) ∧
      (assembleAction sampleEnv asciiLower ["ginkgo_tests"] defaultExclude []).2 =
        (parsed.map fun p => Event.extractDependencies p.1) ++
        (parsed.map fun p => Event.extractDevDependencies p.1) ++
        [Event.writeFile "package.json"
          { Name := "triforce-" ++ pathBase root
            Description := "automatically generated by triforce"
            Dependencies := dependencies
            DevDependencies := devDependencies }] :=
  ⟨by decide, by decide,
    assembleAction_emits sampleEnv asciiLower ["ginkgo_tests"] defaultExclude [] (by decide)⟩

end Triforce
